import Mathlib

/-!
Shallow embedding of the k-in-a-row minimax agent (`minimax_agent.py`).

The agent's own code (`MinimaxAgent`) is translated function by function.
The game-state collaborator (`game.GameState`) is not part of the sources;
its operations are modelled from the spec (each such definition says so in
its doc comment).  Python floats are modelled by `ℚ`; every numeric literal
the evaluator produces is an exact multiple of 1/10, so this is faithful up
to floating-point rounding, which none of the verified properties depend on.
The `float('inf')` / `float('-inf')` sentinels used by the search are
modelled by the three-point extension `XF` of `ℚ`.
-/

attribute [local semireducible] Rat.add Rat.mul Rat.inv Rat.sub

namespace KInARow

/-- One board cell: empty, an X piece, an O piece, or a permanently blocked
cell (`'.'`, `'X'`, `'O'`, `'#'` in the Python source). -/
inductive Cell where
  | empty
  | pieceX
  | pieceO
  | block
deriving DecidableEq, Repr, Fintype

/-- A player mark (the strings `'X'` / `'O'` in the source). -/
inductive Player where
  | X
  | O
deriving DecidableEq, Repr

/-- The cell occupied by a player's piece. -/
def Player.cell : Player → Cell
  | .X => .pieceX
  | .O => .pieceO

/-- The opposing player (`O_PIECE if agent_piece == X_PIECE else X_PIECE`). -/
def Player.other : Player → Player
  | .X => .O
  | .O => .X

/-- Modelled from the spec: the immutable game state of the collaborator
`game.GameState` — the grid (a list of `h` rows of `w` cells each), whose
turn is next, and the required run length `k`.  The Python object also
stores `w` and `h`; here they are derived from the grid (see
`GameState.w`, `GameState.h`), which agrees with the Python attributes on
well-formed rectangular boards. -/
structure GameState where
  board : List (List Cell)
  next_player : Player
  k : Nat
deriving DecidableEq, Repr

namespace GameState

/-- Board width (`state.w`): the length of a row. -/
def w (s : GameState) : Nat := (s.board.headD []).length

/-- Board height (`state.h`): the number of rows. -/
def h (s : GameState) : Nat := s.board.length

/-- The cell at row `r`, column `c` (`state.board[r][c]`); out-of-range
reads (which the Python code never performs) default to `block`. -/
def cell (s : GameState) (r c : Nat) : Cell := (s.board.getD r []).getD c Cell.block

/-- Modelled from the spec: the collaborator's legality predicate for a
coordinate — a move `(x, y)` (column `x`, row `y`) is legal when it is in
bounds and refers to a currently empty, unblocked cell. -/
def is_valid_move (s : GameState) (m : Nat × Nat) : Bool :=
  decide (m.1 < s.w) && decide (m.2 < s.h) && (s.cell m.2 m.1 == Cell.empty)

/-- Modelled from the spec: the collaborator's pure successor-state
constructor — place the next player's piece at `(x, y)` (row `y`, column
`x`) and pass the turn. -/
def make_move (s : GameState) (m : Nat × Nat) : GameState :=
  { board := s.board.set m.2 ((s.board.getD m.2 []).set m.1 s.next_player.cell)
    next_player := s.next_player.other
    k := s.k }

end GameState

/-- Row `r` of the board as a line, `[state.board[row][col] for col in range(state.w)]`. -/
def rowLine (s : GameState) (r : Nat) : List Cell :=
  (List.range s.w).map (fun c => s.cell r c)

/-- Column `c` of the board as a line, `[state.board[row][col] for row in range(state.h)]`. -/
def colLine (s : GameState) (c : Nat) : List Cell :=
  (List.range s.h).map (fun r => s.cell r c)

/-- The length-`k` down-right diagonal starting at `(i, j)`,
`[state.board[i+x][j+x] for x in range(state.k)]`. -/
def diagLine (s : GameState) (i j : Nat) : List Cell :=
  (List.range s.k).map (fun t => s.cell (i + t) (j + t))

/-- The length-`k` down-left diagonal of the `k`-box at `(i, j)`,
`[state.board[i+x][j+state.k-1-x] for x in range(state.k)]`. -/
def antiLine (s : GameState) (i j : Nat) : List Cell :=
  (List.range s.k).map (fun t => s.cell (i + t) (j + s.k - 1 - t))

/-- The length-`k` windows of a line: `line[i:i+k]` for
`i in range(len(line) - k + 1)`. -/
def lineWindows (line : List Cell) (k : Nat) : List (List Cell) :=
  (List.range (line.length + 1 - k)).map (fun i => (line.drop i).take k)

/-- Every length-`k` window of every maximal row and column together with
every length-`k` diagonal segment of both orientations (the same line
enumeration `static_eval` scans). -/
def allWindows (s : GameState) : List (List Cell) :=
  ((List.range s.h).map (rowLine s)).flatMap (fun l => lineWindows l s.k) ++
  ((List.range s.w).map (colLine s)).flatMap (fun l => lineWindows l s.k) ++
  ((List.range (s.h + 1 - s.k)).flatMap (fun i =>
    (List.range (s.w + 1 - s.k)).flatMap (fun j => [diagLine s i j, antiLine s i j])))

/-- Modelled from the spec: whether player `p` has `k` aligned same-marked
cells in a row, column, or diagonal. -/
def hasKRun (s : GameState) (p : Player) : Bool :=
  (allWindows s).any (fun seg => decide (seg.length = s.k) && seg.all (fun c => c == p.cell))

/-- Result of a finished game: a win for one side, or a draw. -/
inductive Outcome where
  | win (p : Player)
  | draw
deriving DecidableEq, Repr

/-- Python's `[(x, y) for x in range(state.w) for y in range(state.h) if
state.is_valid_move((x, y))]`, the legal-move enumeration used by
`get_ordered_moves` and `get_random_move` (`valid_moves` in the source). -/
def valid_moves (s : GameState) : List (Nat × Nat) :=
  ((List.range s.w).flatMap (fun x => (List.range s.h).map (fun y => (x, y)))).filter
    (fun m => s.is_valid_move m)

/-- Modelled from the spec: the collaborator's terminal-result query
(`state.winner()`) — one of side-A wins, side-B wins, draw (no legal move
left and no winner), or `none` for an unresolved position. -/
def GameState.winner (s : GameState) : Option Outcome :=
  if hasKRun s .X then some (.win .X)
  else if hasKRun s .O then some (.win .O)
  else if valid_moves s = [] then some .draw
  else none

/-- The contribution of one length-`k` window (`segment`) inside
`MinimaxAgent.evaluate_line`'s loop: windows containing a blocked cell are
skipped (contribute `0`); otherwise a single-sided window contributes the
win sentinel `1000000` for a full run and `±10 ** count` below that, and
every unblocked window additionally gains `empty_count * 0.1`. -/
def windowScore (seg : List Cell) (agent_piece : Player) (k : Nat) : ℚ :=
  if seg.contains Cell.block then 0
  else
    let agent_count := seg.count agent_piece.cell
    let opponent_count := seg.count agent_piece.other.cell
    let empty_count := seg.count Cell.empty
    (if opponent_count = 0 then
       (if agent_count = k then 1000000 else (10 : ℚ) ^ agent_count)
     else if agent_count = 0 then
       (if opponent_count = k then -1000000 else -((10 : ℚ) ^ opponent_count))
     else 0)
    + empty_count * (1 / 10)

/-- `MinimaxAgent.evaluate_line`: slide a length-`k` window along the line
and sum the contributions. -/
def evaluate_line (line : List Cell) (agent_piece : Player) (k : Nat) : ℚ :=
  (List.range (line.length + 1 - k)).foldl
    (fun score i => score + windowScore ((line.drop i).take k) agent_piece k) 0

/-- `MinimaxAgent.static_eval`: sum of `evaluate_line` over every row,
every column, and both diagonals of every `k`-box. -/
def static_eval (s : GameState) (piece : Player) : ℚ :=
  ((List.range s.h).foldl (fun score r => score + evaluate_line (rowLine s r) piece s.k) 0) +
  ((List.range s.w).foldl (fun score c => score + evaluate_line (colLine s c) piece s.k) 0) +
  ((List.range (s.h + 1 - s.k)).foldl (fun score i =>
    (List.range (s.w + 1 - s.k)).foldl (fun score j =>
      score + evaluate_line (diagLine s i j) piece s.k
            + evaluate_line (antiLine s i j) piece s.k) score) 0)

/-- A Python float as the search uses it: either a finite value (always an
exact multiple of 1/10 here, modelled by `ℚ`) or one of the sentinels
`float('-inf')` / `float('inf')`. -/
inductive XF where
  | ninf
  | num (q : ℚ)
  | pinf
deriving DecidableEq, Repr

namespace XF

/-- The `<=` comparison on search values. -/
def le : XF → XF → Bool
  | .ninf, _ => true
  | _, .pinf => true
  | .num a, .num b => decide (a ≤ b)
  | .pinf, .num _ => false
  | .pinf, .ninf => false
  | .num _, .ninf => false

/-- The strict `<` comparison on search values. -/
def lt (a b : XF) : Bool := !(le b a)

/-- Python's `max` on two search values (returns the first on ties). -/
def max (a b : XF) : XF := if le b a then a else b

/-- Python's `min` on two search values (returns the first on ties). -/
def min (a b : XF) : XF := if le a b then a else b

end XF

/-- A transposition-table entry: `(depth searched, best move, best score)`. -/
abbrev Entry := Nat × Option (Nat × Nat) × XF

/-- The transposition table (`self.transposition_table`), a Python dict
keyed by `hash_state`; modelled as an association list where an update
shadows the previous binding. -/
abbrev Table (κ : Type) := List (κ × Entry)

/-- Dictionary lookup (`table[state_hash]` guarded by `state_hash in table`). -/
def tbl_find [DecidableEq κ] (tbl : Table κ) (key : κ) : Option Entry :=
  (tbl.find? (fun e => decide (e.1 = key))).map (fun e => e.2)

/-- Dictionary assignment (`table[state_hash] = entry`), modelled by a
shadowing cons. -/
def tbl_insert (tbl : Table κ) (key : κ) (e : Entry) : Table κ := (key, e) :: tbl

/-- Stable insertion of `a` into `l`: `a` goes in front of the first
element `b` with `le a b`, so among `le`-ties `a` keeps its earlier place. -/
def insertStable (le : α → α → Bool) (a : α) : List α → List α
  | [] => [a]
  | b :: l => if le a b then a :: b :: l else b :: insertStable le a l

/-- Stable sort by the comparison `le` (insertion sort).  Python's
`list.sort` is specified to be a stable sort, and all stable sorts of a
list under the same total comparison produce the identical list, so this
models `move_scores.sort(...)` exactly. -/
def sortStable (le : α → α → Bool) : List α → List α
  | [] => []
  | a :: l => insertStable le a (sortStable le l)

/-- `MinimaxAgent.get_ordered_moves`: enumerate the legal moves, score the
successor of each with `static_eval` from the agent's own perspective, and
stably sort best-score-first (`sort(key=lambda x: x[1], reverse=True)`). -/
def get_ordered_moves (piece : Player) (s : GameState) : List (Nat × Nat) :=
  let moves := valid_moves s
  let move_scores := moves.map (fun m => (m, static_eval (s.make_move m) piece))
  (sortStable (fun a b => decide (b.2 ≤ a.2)) move_scores).map (fun p => p.1)

/-- `MinimaxAgent.get_random_move`: a random choice among the legal moves,
or the fixed pair `(0, 0)` when there are none.  `random.choice` is
modelled by the oracle `choice`. -/
def get_random_move (choice : List (Nat × Nat) → Nat × Nat) (s : GameState) : Nat × Nat :=
  let vms := valid_moves s
  if vms.isEmpty then (0, 0) else choice vms

/-!
Wall-clock reads (`time.time() - start_time > time_limit * 0.95`) are
modelled by the oracle `expired : Nat → Bool`, consulted on a tick counter
that advances by one at every clock read; the counter is threaded through
the recursion exactly where the Python code reads the clock (entry to
`minimax`, entry to `quiescence_search`, and the `choose_move` loop test).
`expired = fun t => false` is the "deadline never reached" run.
-/

/-- The loop state of the `quiescence_search` move loop: the running
`alpha` and `beta`, the mid-loop `return` value once one of the cutoffs
fired (Python's `return beta` / `return alpha` inside the loop), and the
tick counter. -/
structure QState where
  alpha : XF
  beta : XF
  result : Option XF
  t : Nat
deriving Repr

/-- One iteration of the `quiescence_search` move loop: only moves leading
to an immediately resolved terminal child are expanded (`recur` is the
quiescence recursion one level deeper); once a cutoff has fired the
remaining iterations do nothing (this models the early `return`). -/
def qStep (recur : GameState → XF → XF → Bool → Nat → XF × Nat)
    (maximizing : Bool) (s : GameState) (acc : QState) (m : Nat × Nat) : QState :=
  if acc.result.isSome then acc
  else
    let s2 := s.make_move m
    if (s2.winner).isSome then
      let (score, t') := recur s2 acc.alpha acc.beta (!maximizing) acc.t
      if maximizing then
        let alpha' := XF.max acc.alpha score
        if XF.le acc.beta alpha' then { acc with alpha := alpha', result := some acc.beta, t := t' }
        else { acc with alpha := alpha', t := t' }
      else
        let beta' := XF.min acc.beta score
        if XF.le beta' acc.alpha then { acc with beta := beta', result := some acc.alpha, t := t' }
        else { acc with beta := beta', t := t' }
    else acc

/-- `MinimaxAgent.quiescence_search`.  The Python quiescence depth counter
(cut off once `depth > 5`) is modelled by the remaining fuel
`fuel = 6 - depth`, so the initial call has `fuel = 6`; at `fuel = 0` the
function returns `static_eval` exactly as it does at the deadline, so the
two exit conditions of line 210 collapse into the same result. -/
def quiescence_search (piece : Player) (expired : Nat → Bool) :
    Nat → GameState → XF → XF → Bool → Nat → XF × Nat
  | 0, s, _, _, _, t => (XF.num (static_eval s piece), t + 1)
  | f + 1, s, alpha, beta, maximizing, t =>
    if expired t then (XF.num (static_eval s piece), t + 1)
    else
      let stand_pat := XF.num (static_eval s piece)
      if maximizing then
        if XF.le beta stand_pat then (beta, t + 1)
        else
          let r := (get_ordered_moves piece s).foldl
            (qStep (fun s2 a b mp tt => quiescence_search piece expired f s2 a b mp tt)
              maximizing s)
            ⟨XF.max alpha stand_pat, beta, none, t + 1⟩
          (match r.result with
           | some v => v
           | none => r.alpha, r.t)
      else
        if XF.le stand_pat alpha then (alpha, t + 1)
        else
          let r := (get_ordered_moves piece s).foldl
            (qStep (fun s2 a b mp tt => quiescence_search piece expired f s2 a b mp tt)
              maximizing s)
            ⟨alpha, XF.min beta stand_pat, none, t + 1⟩
          (match r.result with
           | some v => v
           | none => r.beta, r.t)

/-- The terminal / depth-exhausted branch of `minimax` (line 76 of the
source): hand the position to `quiescence_search` and report no move.
`t` is the tick after the entry clock read. -/
def mmLeaf (piece : Player) (expired : Nat → Bool) (s : GameState)
    (alpha beta : XF) (maximizing_player : Bool) (tbl : Table κ) (t : Nat) :
    (Option (Nat × Nat) × XF) × Table κ × Nat :=
  let (v, t') := quiescence_search piece expired 6 s alpha beta maximizing_player t
  ((none, v), tbl, t')

/-- The loop state of the `minimax` move loop: the running best move and
best score, the tightening `alpha` / `beta`, whether the `beta <= alpha`
break has fired, the table, and the tick counter. -/
structure MState (κ : Type) where
  best_move : Option (Nat × Nat)
  best_score : XF
  alpha : XF
  beta : XF
  done : Bool
  tbl : Table κ
  t : Nat

/-- One iteration of the `minimax` move loop (lines 86–102): recurse on the
child (`recur` is `minimax` at `depth - 1`), keep the strictly best score
and its move, tighten `alpha` (maximizing) or `beta` (minimizing), and
flag `done` once `beta <= alpha` (the `break`; later iterations then do
nothing). -/
def mStep (recur : GameState → XF → XF → Bool → Table κ → Nat →
      (Option (Nat × Nat) × XF) × Table κ × Nat)
    (is_maximizing : Bool) (s : GameState) (acc : MState κ) (m : Nat × Nat) : MState κ :=
  if acc.done then acc
  else
    let s2 := s.make_move m
    let ((_, score), tbl', t') := recur s2 acc.alpha acc.beta (!is_maximizing) acc.tbl acc.t
    if is_maximizing then
      let bmbs := if XF.lt acc.best_score score then (some m, score)
                  else (acc.best_move, acc.best_score)
      let alpha' := XF.max acc.alpha bmbs.2
      { best_move := bmbs.1, best_score := bmbs.2, alpha := alpha', beta := acc.beta,
        done := XF.le acc.beta alpha', tbl := tbl', t := t' }
    else
      let bmbs := if XF.lt score acc.best_score then (some m, score)
                  else (acc.best_move, acc.best_score)
      let beta' := XF.min acc.beta bmbs.2
      { best_move := bmbs.1, best_score := bmbs.2, alpha := acc.alpha, beta := beta',
        done := XF.le beta' acc.alpha, tbl := tbl', t := t' }

/-- The recursive branch of `minimax` (lines 82–105): run the move loop
over the ordered moves and store `(depth, best_move, best_score)` in the
table before returning.  `d` is the Python `depth - 1` and `recur` is
`minimax` at depth `d`. -/
def mDescend (recur : GameState → XF → XF → Bool → Table κ → Nat →
      (Option (Nat × Nat) × XF) × Table κ × Nat)
    (key : GameState → κ) (piece : Player) (d : Nat) (s : GameState)
    (alpha beta : XF) (tbl : Table κ) (t : Nat) :
    (Option (Nat × Nat) × XF) × Table κ × Nat :=
  let is_maximizing := s.next_player == piece
  let r := (get_ordered_moves piece s).foldl (mStep recur is_maximizing s)
    { best_move := none, best_score := if is_maximizing then XF.ninf else XF.pinf,
      alpha := alpha, beta := beta, done := false, tbl := tbl, t := t }
  ((r.best_move, r.best_score),
   tbl_insert r.tbl (key s) (d + 1, r.best_move, r.best_score), r.t)

/-- `MinimaxAgent.minimax` with the transposition table and the tick
counter threaded through (they are the state the Python method mutates).
The entry clock check (line 72) appears in both depth branches. -/
def minimax [DecidableEq κ] (key : GameState → κ) (piece : Player)
    (expired : Nat → Bool) :
    Nat → GameState → XF → XF → Bool → Table κ → Nat →
      (Option (Nat × Nat) × XF) × Table κ × Nat
  | 0, s, alpha, beta, maximizing_player, tbl, t =>
    if expired t then ((none, XF.num (static_eval s piece)), tbl, t + 1)
    else mmLeaf piece expired s alpha beta maximizing_player tbl (t + 1)
  | d + 1, s, alpha, beta, maximizing_player, tbl, t =>
    if expired t then ((none, XF.num (static_eval s piece)), tbl, t + 1)
    else if (s.winner).isSome then
      mmLeaf piece expired s alpha beta maximizing_player tbl (t + 1)
    else
      match tbl_find tbl (key s) with
      | some (d', bm, bs) =>
        if d + 1 ≤ d' then ((bm, bs), tbl, t + 1)
        else
          mDescend (fun s2 a b mp tb tt => minimax key piece expired d s2 a b mp tb tt)
            key piece d s alpha beta tbl (t + 1)
      | none =>
        mDescend (fun s2 a b mp tb tt => minimax key piece expired d s2 a b mp tb tt)
          key piece d s alpha beta tbl (t + 1)

/-- The iterative-deepening loop of `MinimaxAgent.choose_move` (lines
44–54): while the clock allows, run `minimax` at increasing depth and
record each returned move; stop when a depth returns no move.  `fuel`
bounds the number of iterations (the wall clock always expires in the real
program; a run cut off after `n` iterations is modelled by either `fuel`
or the `expired` oracle). -/
def choose_move_aux [DecidableEq κ] (key : GameState → κ) (piece : Player)
    (expired : Nat → Bool) (fuel depth : Nat) (best_move : Option (Nat × Nat))
    (s : GameState) (tbl : Table κ) (t : Nat) : Option (Nat × Nat) × Table κ × Nat :=
  match fuel with
  | 0 => (best_move, tbl, t)
  | f + 1 =>
    if expired t then (best_move, tbl, t + 1)
    else
      let ((move, _), tbl', t') :=
        minimax key piece expired depth s XF.ninf XF.pinf true tbl (t + 1)
      match move with
      | some m => choose_move_aux key piece expired f (depth + 1) (some m) s tbl' t'
      | none => (best_move, tbl', t')

/-- `MinimaxAgent.choose_move`: the deepest completed move if any
iteration produced one, else the random fallback (`best_move if best_move
else self.get_random_move(state)`). -/
def choose_move [DecidableEq κ] (key : GameState → κ) (piece : Player)
    (expired : Nat → Bool) (choice : List (Nat × Nat) → Nat × Nat) (fuel : Nat)
    (s : GameState) (tbl : Table κ) (t : Nat) : (Nat × Nat) × Table κ × Nat :=
  let (bm, tbl', t') := choose_move_aux key piece expired fuel 1 none s tbl t
  (match bm with
   | some m => m
   | none => get_random_move choice s, tbl', t')

/-- The loop state of the cache-disabled move loop: as `MState` but with
no table. -/
structure NState where
  best_move : Option (Nat × Nat)
  best_score : XF
  alpha : XF
  beta : XF
  done : Bool
  t : Nat

/-- One iteration of the cache-disabled move loop: as `mStep` but with no
table. -/
def nStep (recur : GameState → XF → XF → Bool → Nat → (Option (Nat × Nat) × XF) × Nat)
    (is_maximizing : Bool) (s : GameState) (acc : NState) (m : Nat × Nat) : NState :=
  if acc.done then acc
  else
    let s2 := s.make_move m
    let ((_, score), t') := recur s2 acc.alpha acc.beta (!is_maximizing) acc.t
    if is_maximizing then
      let bmbs := if XF.lt acc.best_score score then (some m, score)
                  else (acc.best_move, acc.best_score)
      let alpha' := XF.max acc.alpha bmbs.2
      { best_move := bmbs.1, best_score := bmbs.2, alpha := alpha', beta := acc.beta,
        done := XF.le acc.beta alpha', t := t' }
    else
      let bmbs := if XF.lt score acc.best_score then (some m, score)
                  else (acc.best_move, acc.best_score)
      let beta' := XF.min acc.beta bmbs.2
      { best_move := bmbs.1, best_score := bmbs.2, alpha := acc.alpha, beta := beta',
        done := XF.le beta' acc.alpha, t := t' }

/-- `MinimaxAgent.minimax` with the transposition cache disabled: the same
code with the cache consultation (lines 78–80) and the store (line 104)
removed, used to state whether the cache changes the returned score. -/
def minimax_nc (piece : Player) (expired : Nat → Bool) :
    Nat → GameState → XF → XF → Bool → Nat → (Option (Nat × Nat) × XF) × Nat
  | 0, s, alpha, beta, maximizing_player, t =>
    if expired t then ((none, XF.num (static_eval s piece)), t + 1)
    else
      let (v, t') := quiescence_search piece expired 6 s alpha beta maximizing_player (t + 1)
      ((none, v), t')
  | d + 1, s, alpha, beta, maximizing_player, t =>
    if expired t then ((none, XF.num (static_eval s piece)), t + 1)
    else if (s.winner).isSome then
      let (v, t') := quiescence_search piece expired 6 s alpha beta maximizing_player (t + 1)
      ((none, v), t')
    else
      let is_maximizing := s.next_player == piece
      let r := (get_ordered_moves piece s).foldl
        (nStep (fun s2 a b mp tt => minimax_nc piece expired d s2 a b mp tt)
          is_maximizing s)
        { best_move := none, best_score := if is_maximizing then XF.ninf else XF.pinf,
          alpha := alpha, beta := beta, done := false, t := t + 1 }
      ((r.best_move, r.best_score), r.t)

/-- Modelled from the spec: the reference unpruned minimax of the
differential test (§8) — plain depth-limited minimax with no pruning, no
cache and the raw evaluator at terminal or depth-exhausted positions,
maximizing exactly when the searching agent's own mark is to move. -/
def ref_value (piece : Player) : Nat → GameState → ℚ
  | 0, s => static_eval s piece
  | d + 1, s =>
    if (s.winner).isSome then static_eval s piece
    else
      match (valid_moves s).map (fun m => ref_value piece d (s.make_move m)) with
      | [] => static_eval s piece
      | v :: rest =>
        if s.next_player == piece then rest.foldl (fun a b => Max.max a b) v
        else rest.foldl (fun a b => Min.min a b) v

/-- The pre-hash cache key built by `MinimaxAgent.hash_state`:
`tuple(tuple(row) for row in state.board) + (state.next_player,)`, the
exact pair of grid contents and next-to-move side (Python then applies the
64-bit builtin `hash` to it). -/
def encode_state (s : GameState) : List (List Cell) × Player := (s.board, s.next_player)

/-- A full 7×7 grid of cells, one of the board sizes the front end offers
(`"7x7"` in `gui_game.py`). -/
abbrev Grid7 : Type := Fin 7 → Fin 7 → Cell

/-- The game state holding a given 7×7 grid (`k = 7`, X to move). -/
def grid7_to_state (g : Grid7) : GameState :=
  { board := (List.finRange 7).map (fun i => (List.finRange 7).map (fun j => g i j))
    next_player := .X
    k := 7 }

/-- The "deadline never reached" clock oracle. -/
def never_expired : Nat → Bool := fun _ => false

/-- A concrete `random.choice` oracle: pick the head of the nonempty list. -/
def first_choice : List (Nat × Nat) → Nat × Nat := fun l => l.headD (0, 0)

/-- A drawn, fully occupied 3×3 board (no legal move, no winner). -/
def drawn_board : GameState :=
  ⟨[[.pieceX, .pieceO, .pieceX], [.pieceX, .pieceO, .pieceO], [.pieceO, .pieceX, .pieceX]],
   .X, 3⟩

/-- A 3×3 board whose every cell is permanently blocked (no legal move). -/
def blocked_board : GameState :=
  ⟨[[.block, .block, .block], [.block, .block, .block], [.block, .block, .block]], .X, 3⟩

/-- A terminal 3×3 position (X owns a full row, so `winner` reports X)
whose evaluation is tiny: the X and O sentinel windows cancel. -/
def both_runs_board : GameState :=
  ⟨[[.pieceX, .pieceX, .pieceX], [.pieceO, .pieceO, .pieceO], [.empty, .empty, .empty]],
   .O, 3⟩

/-- A non-terminal 3×3 position (a lone X in the centre) whose heuristic
evaluation exceeds the sentinel-bearing score of `both_runs_board`. -/
def center_board : GameState :=
  ⟨[[.empty, .empty, .empty], [.empty, .pieceX, .empty], [.empty, .empty, .empty]], .O, 3⟩

/-- A reachable 3×3 position (X X . / O . X / O . ., O to move) on which a
depth-4 search returns different scores with the cache enabled and
disabled: the position after O plays twice and X once more repeats inside
the tree, and the cached value — stored under an earlier, narrower
alpha-beta window — is replayed as exact. -/
def cache_diverge_state : GameState :=
  ⟨[[.pieceX, .pieceX, .empty], [.pieceO, .empty, .pieceX], [.pieceO, .empty, .empty]],
   .O, 3⟩

/-- A reachable 3×3 position (O X X / . X O / O . ., X to move) where X
can win immediately at `(1, 2)`, yet the depth-1 search returns `(0, 1)`:
quiescence keeps searching past the terminal win and misvalues it. -/
def missed_win_state : GameState :=
  ⟨[[.pieceO, .pieceX, .pieceX], [.empty, .pieceX, .pieceO], [.pieceO, .empty, .empty]],
   .X, 3⟩

/-- The empty 3×3 board with X to move. -/
def empty3 : GameState :=
  ⟨[[.empty, .empty, .empty], [.empty, .empty, .empty], [.empty, .empty, .empty]], .X, 3⟩

/-- A position X has already won (top row) that still has empty cells, so
the legal-move set is nonempty while `winner` is already decided. -/
def won_open_board : GameState :=
  ⟨[[.pieceX, .pieceX, .pieceX], [.pieceO, .pieceO, .empty], [.empty, .empty, .empty]],
   .O, 3⟩

/-- A fully exact cache key: the `hash_state` tuple together with `k`.
Distinct states always receive distinct `exact_key`s, which models a run
of the program in which Python's 64-bit `hash` happens to be
collision-free on every state encountered. -/
def exact_key (s : GameState) : (List (List Cell) × Player) × Nat := (encode_state s, s.k)

/-- Legality invariant of the transposition table: every stored best move
is a legal move of (any state hashing to) its key.  With an injective key
this pins the move to the unique state that produced the entry. -/
def table_ok {κ : Type} [DecidableEq κ] (key : GameState → κ) (tbl : Table κ) : Prop :=
  ∀ (s : GameState) (d : Nat) (m : Nat × Nat) (sc : XF),
    tbl_find tbl (key s) = some (d, some m, sc) → s.is_valid_move m = true

/-! ## General lemmas about the embedding -/

set_option maxRecDepth 40000

/-- The `first_choice` oracle satisfies the contract of `random.choice`:
it returns an element of any nonempty list. -/
theorem first_choice_mem (l : List (Nat × Nat)) (h : l ≠ []) : first_choice l ∈ l := by
  cases l with
  | nil => exact absurd rfl h
  | cons a l => exact List.mem_cons_self a l

/-- `exact_key` separates distinct states. -/
theorem exact_key_injective : Function.Injective exact_key := by
  intro s t h
  cases s
  cases t
  simp only [exact_key, encode_state, Prod.mk.injEq] at h
  obtain ⟨⟨hb, hn⟩, hk⟩ := h
  simp [hb, hn, hk]

/-- Reading back a cell of `grid7_to_state`. -/
theorem grid7_cell (g : Grid7) (i j : Fin 7) :
    (grid7_to_state g).cell i.val j.val = g i j := by
  have h1 : ((List.finRange 7).map (fun a => (List.finRange 7).map (fun b => g a b))).getD i.val []
      = (List.finRange 7).map (fun b => g i b) := by
    rw [List.getD_eq_getElem _ _ (by simp)]
    simp
  have h2 : ((List.finRange 7).map (fun b => g i b)).getD j.val Cell.block = g i j := by
    rw [List.getD_eq_getElem _ _ (by simp)]
    simp
  unfold grid7_to_state GameState.cell
  rw [h1, h2]

/-- The 7×7 grid embeds injectively into game states. -/
theorem grid7_to_state_injective : Function.Injective grid7_to_state := by
  intro g g' h
  funext i j
  have hc := congrArg (fun s => s.cell i.val j.val) h
  simpa only [grid7_cell] using hc

/-- `insertStable` places `a` after a (possibly empty) prefix of elements
it may not precede and leaves the rest of the list unchanged. -/
theorem insertStable_split (le : α → α → Bool) (a : α) (l : List α) :
    ∃ l1 l2, insertStable le a l = l1 ++ a :: l2 ∧ l = l1 ++ l2 ∧
      ∀ b ∈ l1, le a b = false := by
  induction l with
  | nil => exact ⟨[], [], rfl, rfl, by simp⟩
  | cons b l ih =>
    by_cases h : le a b = true
    · exact ⟨[], b :: l, by simp [insertStable, h], rfl, by simp⟩
    · obtain ⟨l1, l2, h1, h2, h3⟩ := ih
      refine ⟨b :: l1, l2, ?_, ?_, ?_⟩
      · simp [insertStable, h, h1]
      · simp [h2]
      · intro c hc
        rcases List.mem_cons.mp hc with hc | hc
        · subst hc
          simpa using h
        · exact h3 c hc

/-- Stable insertion permutes the cons. -/
theorem insertStable_perm (le : α → α → Bool) (a : α) (l : List α) :
    List.Perm (insertStable le a l) (a :: l) := by
  obtain ⟨l1, l2, h1, h2, -⟩ := insertStable_split le a l
  rw [h1, h2]
  exact List.perm_middle

/-- Stable sorting permutes the list. -/
theorem sortStable_perm (le : α → α → Bool) (l : List α) :
    List.Perm (sortStable le l) l := by
  induction l with
  | nil => exact List.Perm.refl []
  | cons a l ih => exact (insertStable_perm le a (sortStable le l)).trans (ih.cons a)

/-- Elements the inserted one jumps over never satisfy `p` (under the
compatibility hypothesis), so filtering by `p` sees the insertion in
place. -/
theorem insertStable_filter (le : α → α → Bool) (p : α → Bool) (a : α) (l : List α)
    (hcomp : ∀ b, le a b = false → p b = false) :
    (insertStable le a l).filter p = if p a then a :: l.filter p else l.filter p := by
  obtain ⟨l1, l2, h1, h2, h3⟩ := insertStable_split le a l
  rw [h1, h2]
  have hl1 : l1.filter p = [] :=
    List.filter_eq_nil_iff.mpr (fun b hb => by simp [hcomp b (h3 b hb)])
  by_cases hpa : p a = true
  · simp [List.filter_append, hl1, List.filter_cons, hpa]
  · simp [List.filter_append, hl1, List.filter_cons, hpa]

/-- Stability of `sortStable`: filtering by any predicate closed downward
under "was jumped over" commutes with sorting; for the descending-score
comparison this says every equal-score class keeps its original order. -/
theorem sortStable_filter (le : α → α → Bool) (p : α → Bool)
    (hcomp : ∀ a b, p a = true → le a b = false → p b = false) (l : List α) :
    (sortStable le l).filter p = l.filter p := by
  induction l with
  | nil => rfl
  | cons a l ih =>
    show (insertStable le a (sortStable le l)).filter p = _
    by_cases hpa : p a = true
    · rw [insertStable_filter le p a _ (fun b hb => hcomp a b hpa hb), if_pos hpa]
      simp [List.filter_cons, hpa, ih]
    · obtain ⟨l1, l2, h1, h2, -⟩ := insertStable_split le a (sortStable le l)
      rw [h1]
      have hsplit : (l1 ++ a :: l2).filter p = (l1 ++ l2).filter p := by
        simp [List.filter_append, List.filter_cons, hpa]
      rw [hsplit, ← h2, ih]
      simp [List.filter_cons, hpa]

/-- Membership in the legal-move enumeration is exactly legality. -/
theorem mem_valid_moves (s : GameState) (m : Nat × Nat) :
    m ∈ valid_moves s ↔ s.is_valid_move m = true := by
  constructor
  · intro h
    exact (List.mem_filter.mp h).2
  · intro h
    refine List.mem_filter.mpr ⟨?_, h⟩
    have h1 : m.1 < s.w ∧ m.2 < s.h := by
      unfold GameState.is_valid_move at h
      simp only [Bool.and_eq_true, decide_eq_true_eq] at h
      exact ⟨h.1.1, h.1.2⟩
    simp only [List.mem_flatMap, List.mem_map, List.mem_range]
    exact ⟨m.1, h1.1, m.2, h1.2, rfl⟩

/-- The legal-move enumeration lists each coordinate at most once. -/
theorem valid_moves_nodup (s : GameState) : (valid_moves s).Nodup := by
  apply List.Nodup.filter
  rw [List.nodup_flatMap]
  constructor
  · intro x _
    exact (List.nodup_range _).map (fun a b hab => congrArg Prod.snd hab)
  · refine (List.pairwise_lt_range _).imp ?_
    intro x y hxy
    intro a ha hb
    simp only [List.mem_map, List.mem_range] at ha hb
    obtain ⟨ya, -, ha⟩ := ha
    obtain ⟨yb, -, hb⟩ := hb
    have : x = y := by
      have h1 := congrArg Prod.fst ha
      have h2 := congrArg Prod.fst hb
      simp at h1 h2
      omega
    omega

/-- `get_ordered_moves` permutes the legal-move enumeration. -/
theorem get_ordered_moves_perm (piece : Player) (s : GameState) :
    List.Perm (get_ordered_moves piece s) (valid_moves s) := by
  simp only [get_ordered_moves]
  refine ((sortStable_perm _ _).map _).trans ?_
  rw [List.map_map]
  have hid : (Prod.fst ∘ fun m => (m, static_eval (s.make_move m) piece)) =
      (id : (Nat × Nat) → Nat × Nat) := rfl
  rw [hid, List.map_id]

/-- Every move produced by `get_ordered_moves` is legal. -/
theorem mem_ordered_valid (piece : Player) (s : GameState) (m : Nat × Nat)
    (h : m ∈ get_ordered_moves piece s) : s.is_valid_move m = true :=
  (mem_valid_moves s m).mp ((get_ordered_moves_perm piece s).subset h)

/-- Looking up after an insert: the new binding shadows its key and leaves
other keys unchanged. -/
theorem tbl_find_insert {κ : Type} [DecidableEq κ] (tbl : Table κ) (k : κ)
    (e : Entry) (k' : κ) :
    tbl_find (tbl_insert tbl k e) k' = if k = k' then some e else tbl_find tbl k' := by
  unfold tbl_insert tbl_find
  by_cases h : k = k'
  · rw [List.find?_cons_of_pos _ (by simp [h])]
    simp [h]
  · rw [List.find?_cons_of_neg _ (by simp [h])]
    simp [h]

/-- The empty table satisfies the legality invariant. -/
theorem table_ok_nil {κ : Type} [DecidableEq κ] (key : GameState → κ) :
    table_ok key ([] : Table κ) := by
  intro s d m sc h
  simp [tbl_find] at h

/-- Inserting an entry whose move is legal for its state preserves the
invariant; key injectivity rules out cross-state aliasing. -/
theorem table_ok_insert {κ : Type} [DecidableEq κ] {key : GameState → κ}
    (hinj : Function.Injective key) {tbl : Table κ} (htbl : table_ok key tbl)
    (s : GameState) (d : Nat) (bm : Option (Nat × Nat)) (bs : XF)
    (hbm : ∀ m, bm = some m → s.is_valid_move m = true) :
    table_ok key (tbl_insert tbl (key s) (d, bm, bs)) := by
  intro s' d' m' sc h
  rw [tbl_find_insert] at h
  by_cases hk : key s = key s'
  · rw [if_pos hk] at h
    have h2 := Option.some.inj h
    have hbm2 : bm = some m' := congrArg (fun p => p.2.1) h2
    have hss : s' = s := (hinj hk).symm
    subst hss
    exact hbm m' hbm2
  · rw [if_neg hk] at h
    exact htbl s' d' m' sc h

/-- Invariant preservation through a left fold. -/
theorem foldl_preserves {α β : Type} (P : β → Prop) (pre : α → Prop)
    (step : β → α → β) :
    ∀ (l : List α), (∀ a ∈ l, pre a) →
      (∀ acc a, pre a → P acc → P (step acc a)) →
      ∀ init, P init → P (l.foldl step init)
  | [], _, _, _, h => h
  | a :: l, hl, hstep, init, h =>
    foldl_preserves P pre step l (fun b hb => hl b (List.mem_cons_of_mem a hb)) hstep
      (step init a) (hstep init a (hl a (List.mem_cons_self a l)) h)

/-- The table field of one `minimax` loop iteration. -/
theorem mStep_tbl {κ : Type}
    (recur : GameState → XF → XF → Bool → Table κ → Nat →
      (Option (Nat × Nat) × XF) × Table κ × Nat)
    (is_max : Bool) (s : GameState) (acc : MState κ) (m : Nat × Nat) :
    (mStep recur is_max s acc m).tbl =
      if acc.done then acc.tbl
      else (recur (s.make_move m) acc.alpha acc.beta (!is_max) acc.tbl acc.t).2.1 := by
  unfold mStep
  by_cases h : acc.done = true
  · simp [h]
  · have h' : acc.done = false := by simpa using h
    rcases hr : recur (s.make_move m) acc.alpha acc.beta (!is_max) acc.tbl acc.t with
      ⟨⟨mv, sc⟩, tbl', t'⟩
    by_cases hmax : is_max = true
    · subst hmax
      simp only [Bool.not_true] at hr
      simp [h', hr]
    · have hmax' : is_max = false := by simpa using hmax
      subst hmax'
      simp only [Bool.not_false] at hr
      simp [h', hr]

/-- The best move after one `minimax` loop iteration is either unchanged
or the move just examined. -/
theorem mStep_best {κ : Type}
    (recur : GameState → XF → XF → Bool → Table κ → Nat →
      (Option (Nat × Nat) × XF) × Table κ × Nat)
    (is_max : Bool) (s : GameState) (acc : MState κ) (m : Nat × Nat) :
    (mStep recur is_max s acc m).best_move = acc.best_move ∨
      (mStep recur is_max s acc m).best_move = some m := by
  unfold mStep
  by_cases h : acc.done = true
  · simp [h]
  · have h' : acc.done = false := by simpa using h
    rcases hr : recur (s.make_move m) acc.alpha acc.beta (!is_max) acc.tbl acc.t with
      ⟨⟨mv, sc⟩, tbl', t'⟩
    by_cases hmax : is_max = true
    · subst hmax
      simp only [Bool.not_true] at hr
      simp [h', hr]
      split <;> simp
    · have hmax' : is_max = false := by simpa using hmax
      subst hmax'
      simp only [Bool.not_false] at hr
      simp [h', hr]
      split <;> simp

/-- One `minimax` loop iteration preserves the table invariant and the
legality of the recorded best move. -/
theorem mStep_preserves {κ : Type} [DecidableEq κ] {key : GameState → κ}
    (recur : GameState → XF → XF → Bool → Table κ → Nat →
      (Option (Nat × Nat) × XF) × Table κ × Nat)
    (hrec : ∀ s2 a b mp tb tt, table_ok key tb → table_ok key (recur s2 a b mp tb tt).2.1)
    (is_max : Bool) (s : GameState) (acc : MState κ) (m : Nat × Nat)
    (hm : s.is_valid_move m = true)
    (hacc : table_ok key acc.tbl ∧
      ∀ m', acc.best_move = some m' → s.is_valid_move m' = true) :
    table_ok key (mStep recur is_max s acc m).tbl ∧
      ∀ m', (mStep recur is_max s acc m).best_move = some m' →
        s.is_valid_move m' = true := by
  constructor
  · rw [mStep_tbl]
    by_cases h : acc.done = true
    · simpa [h] using hacc.1
    · have h' : acc.done = false := by simpa using h
      simpa [h'] using hrec _ _ _ _ _ _ hacc.1
  · intro m' hm'
    rcases mStep_best recur is_max s acc m with hbest | hbest
    · exact hacc.2 m' (hbest ▸ hm')
    · rw [hbest] at hm'
      exact (Option.some.inj hm') ▸ hm

/-! ## The claims -/

/-- Claim C1 (code bug, demonstration): on the fully occupied drawn board
the legal-move set is empty, yet `choose_move` returns the coordinate
`(0, 0)` — an occupied cell — rather than reporting a distinct
"no legal move" condition.  (`get_random_move`'s empty-list branch,
line 188 of the source, silently yields `(0, 0)`.) -/
theorem choose_move_full_board_returns_occupied :
    (choose_move exact_key Player.O never_expired first_choice 3 drawn_board [] 0).1 = (0, 0) ∧
    valid_moves drawn_board = [] ∧
    drawn_board.is_valid_move (0, 0) = false := by
  decide

/-- Claim C4 (counterexample): the window `X O .` of length `k = 3`
contains no blocked cell and one mark of each side, yet its contribution
is `0.1`, not zero — `evaluate_line` adds `empty_count * 0.1` outside the
single-sided branches. -/
theorem mixed_window_contributes_nonzero :
    ([Cell.pieceX, Cell.pieceO, Cell.empty].contains Cell.block = false) ∧
    [Cell.pieceX, Cell.pieceO, Cell.empty].count Player.X.cell = 1 ∧
    [Cell.pieceX, Cell.pieceO, Cell.empty].count Player.X.other.cell = 1 ∧
    windowScore [Cell.pieceX, Cell.pieceO, Cell.empty] Player.X 3 ≠ 0 ∧
    evaluate_line [Cell.pieceX, Cell.pieceO, Cell.empty] Player.X 3 = 1 / 10 := by
  decide

/-- Claim C4 (amended): a blocked-cell-free window containing at least one
mark of each side contributes exactly `empty_count * 0.1`; in particular a
fully occupied mixed window contributes exactly zero, but a mixed window
with empty cells does not. -/
theorem windowScore_mixed_eq_empties (seg : List Cell) (p : Player) (k : Nat)
    (hb : seg.contains Cell.block = false)
    (ha : seg.count p.cell ≠ 0) (ho : seg.count p.other.cell ≠ 0) :
    windowScore seg p k = (seg.count Cell.empty : ℚ) * (1 / 10) := by
  simp only [windowScore, hb, Bool.false_eq_true, if_false]
  rw [if_neg ho, if_neg ha, zero_add]

/-- Claim C4 (witness for the amended theorem): the hypotheses hold for
the window `X O .` and the contribution is one tenth. -/
theorem windowScore_mixed_eq_empties_witness :
    ([Cell.pieceX, Cell.pieceO, Cell.empty].contains Cell.block = false) ∧
    windowScore [Cell.pieceX, Cell.pieceO, Cell.empty] Player.X 3 =
      (([Cell.pieceX, Cell.pieceO, Cell.empty].count Cell.empty : ℚ) * (1 / 10)) :=
  ⟨by decide,
   windowScore_mixed_eq_empties _ _ _ (by decide) (by decide) (by decide)⟩

/-- Claim C3 (counterexample): on the 3×3 board, the terminal state
`both_runs_board` (X owns the top row, so `winner` reports a win) has
evaluation magnitude `1.8`, strictly below the heuristic magnitude `46`
of the non-terminal `center_board`: a terminal sentinel-bearing score does
not dominate every non-terminal heuristic score. -/
theorem terminal_score_not_dominant :
    both_runs_board.winner = some (.win .X) ∧
    center_board.winner = none ∧
    static_eval both_runs_board Player.X = 9 / 5 ∧
    static_eval center_board Player.X = 46 ∧
    |static_eval both_runs_board Player.X| < |static_eval center_board Player.X| := by
  decide

/-- Claim C5 (counterexample): on the reachable position
`cache_diverge_state` at fixed depth 4 with the deadline never reached,
the cache-enabled search returns score `0` while the otherwise-identical
cache-disabled search returns `-1000000`: the transposition cache changes
the returned score. -/
theorem cache_changes_returned_score :
    (minimax exact_key Player.O never_expired 4 cache_diverge_state
        XF.ninf XF.pinf true [] 0).1.2 = XF.num 0 ∧
    (minimax_nc Player.O never_expired 4 cache_diverge_state
        XF.ninf XF.pinf true 0).1.2 = XF.num (-1000000) ∧
    XF.num (0 : ℚ) ≠ XF.num (-1000000) := by
  decide

/-- Claim C6 (counterexample): on the reachable position
`missed_win_state` (X to move, X can win at `(1, 2)`) at fixed depth 1
with the deadline never reached, the alpha-beta search returns the move
`(0, 1)` whose reference minimax value `90.5` differs from the value
`999900.5` of the move the reference unpruned minimax selects. -/
theorem search_move_value_differs_from_reference :
    missed_win_state.next_player = Player.X ∧
    (minimax exact_key Player.X never_expired 1 missed_win_state
        XF.ninf XF.pinf true [] 0).1.1 = some (0, 1) ∧
    ref_value Player.X 0 (missed_win_state.make_move (1, 2)) =
      ref_value Player.X 1 missed_win_state ∧
    ref_value Player.X 0 (missed_win_state.make_move (0, 1)) ≠
      ref_value Player.X 1 missed_win_state := by
  decide

/-- Claim C2 (counterexample): no keying of game states by 64-bit values
(the codomain of Python's builtin `hash`, which `hash_state` applies to
the state tuple) can be injective: there are `4 ^ 49` distinct states
holding the 7×7 grids — a board size the front end offers — and only
`2 ^ 64` possible keys, so some two states differing in a cell must share
a cache key. -/
theorem hash_key_not_injective :
    Function.Injective grid7_to_state ∧
    ¬ ∃ f : GameState → Fin (2 ^ 64),
        Function.Injective (fun g : Grid7 => f (grid7_to_state g)) := by
  refine ⟨grid7_to_state_injective, ?_⟩
  rintro ⟨f, hf⟩
  have hcard := Fintype.card_le_of_injective _ hf
  rw [Fintype.card_fin] at hcard
  have hg : Fintype.card Grid7 = 4 ^ 49 := by
    rw [Fintype.card_fun, Fintype.card_fun]
    norm_num
    rfl
  rw [hg] at hcard
  norm_num at hcard

/-- Claim C2 (amended): the pre-hash tuple `hash_state` builds —
`tuple(tuple(row) for row in board) + (next_player,)` — is itself an exact,
collision-free encoding of (grid contents, next-to-move side): two states
of one game (same `k`) with equal encodings are equal.  The injectivity is
lost only in the final application of Python's 64-bit `hash`
(see the counterexample). -/
theorem encode_state_exact (s t : GameState) (hk : s.k = t.k)
    (he : encode_state s = encode_state t) : s = t := by
  cases s
  cases t
  simp only [encode_state, Prod.mk.injEq] at he
  simp only at hk
  simp [he.1, he.2, hk]

/-- Claim C2 (witness for the amended theorem). -/
theorem encode_state_exact_witness :
    drawn_board.k = drawn_board.k ∧
    encode_state drawn_board = encode_state drawn_board ∧
    drawn_board = drawn_board :=
  ⟨rfl, rfl, encode_state_exact _ _ rfl rfl⟩

/-- Claim C3 (amended): for win lengths `k ≤ 6`, each unblocked window
that is not a completed `k`-run of either side contributes magnitude
strictly below the `1000000` sentinel.  The aggregate claim fails: on a
terminal board holding both sides' runs the sentinels cancel (see the
counterexample), and at the supported size `k = 7` even one non-winning
window reaches `10 ^ 6 + 0.1`. -/
theorem windowScore_nonwin_below_sentinel (seg : List Cell) (p : Player) (k : Nat)
    (hlen : seg.length = k) (hk : k ≤ 6)
    (hx : seg.count p.cell ≠ k) (ho : seg.count p.other.cell ≠ k) :
    |windowScore seg p k| < 1000000 := by
  by_cases hb : seg.contains Cell.block = true
  · have hmem : Cell.block ∈ seg := by simpa using hb
    simp [windowScore, hmem]
  · have hb' : seg.contains Cell.block = false := by simpa using hb
    have hac : seg.count p.cell < k :=
      lt_of_le_of_ne (hlen ▸ List.count_le_length _ _) hx
    have hoc : seg.count p.other.cell < k :=
      lt_of_le_of_ne (hlen ▸ List.count_le_length _ _) ho
    have hec : seg.count Cell.empty ≤ k := hlen ▸ List.count_le_length _ _
    have hpa : (10 : ℚ) ^ seg.count p.cell ≤ 10 ^ 5 :=
      pow_le_pow_right₀ (by norm_num) (by omega)
    have hpo : (10 : ℚ) ^ seg.count p.other.cell ≤ 10 ^ 5 :=
      pow_le_pow_right₀ (by norm_num) (by omega)
    have hpa1 : (0 : ℚ) < 10 ^ seg.count p.cell := pow_pos (by norm_num) _
    have hpo1 : (0 : ℚ) < 10 ^ seg.count p.other.cell := pow_pos (by norm_num) _
    have hecq : (seg.count Cell.empty : ℚ) ≤ 6 := by exact_mod_cast le_trans hec hk
    have hecq0 : (0 : ℚ) ≤ (seg.count Cell.empty : ℚ) := by positivity
    simp only [windowScore, hb', Bool.false_eq_true, if_false]
    by_cases ho0 : seg.count p.other.cell = 0
    · rw [if_pos ho0, if_neg hx, abs_lt]
      constructor <;> nlinarith [hpa, hpa1, hecq, hecq0]
    · by_cases ha0 : seg.count p.cell = 0
      · rw [if_neg ho0, if_pos ha0, if_neg ho, abs_lt]
        constructor <;> nlinarith [hpo, hpo1, hecq, hecq0]
      · rw [if_neg ho0, if_neg ha0, abs_lt]
        constructor <;> nlinarith [hecq, hecq0]

/-- Claim C3 (witness for the amended theorem): the window `X X .` with
`k = 3` satisfies the hypotheses, and its contribution stays below the
sentinel. -/
theorem windowScore_nonwin_below_sentinel_witness :
    ([Cell.pieceX, Cell.pieceX, Cell.empty].length = 3) ∧ 3 ≤ 6 ∧
    ([Cell.pieceX, Cell.pieceX, Cell.empty].count Player.X.cell ≠ 3) ∧
    ([Cell.pieceX, Cell.pieceX, Cell.empty].count Player.X.other.cell ≠ 3) ∧
    |windowScore [Cell.pieceX, Cell.pieceX, Cell.empty] Player.X 3| < 1000000 :=
  ⟨by decide, by decide, by decide, by decide,
   windowScore_nonwin_below_sentinel _ _ _ (by decide) (by decide) (by decide) (by decide)⟩

/-- Claim C9: `get_ordered_moves` returns exactly the legal moves of the
state, each exactly once, and — being the stable descending-score sort of
the fixed `x`-major enumeration — keeps every pair of equal-scored moves
in enumeration order, so the result is a deterministic function of the
state. -/
theorem get_ordered_moves_exact_and_stable (piece : Player) (s : GameState) :
    (∀ m, m ∈ get_ordered_moves piece s ↔ s.is_valid_move m = true) ∧
    (get_ordered_moves piece s).Nodup ∧
    (∀ m1 m2, [m1, m2].Sublist (valid_moves s) →
      static_eval (s.make_move m1) piece = static_eval (s.make_move m2) piece →
      [m1, m2].Sublist (get_ordered_moves piece s)) := by
  have hperm : List.Perm (get_ordered_moves piece s) (valid_moves s) :=
    get_ordered_moves_perm piece s
  refine ⟨?_, ?_, ?_⟩
  · intro m
    rw [hperm.mem_iff]
    exact mem_valid_moves s m
  · exact (hperm.nodup_iff).mpr (valid_moves_nodup s)
  · intro m1 m2 hsub heq
    have hpair : [(m1, static_eval (s.make_move m1) piece),
        (m2, static_eval (s.make_move m2) piece)].Sublist
        ((valid_moves s).map (fun m => (m, static_eval (s.make_move m) piece))) := by
      simpa using hsub.map (fun m => (m, static_eval (s.make_move m) piece))
    set c := static_eval (s.make_move m1) piece with hc
    set scored := (valid_moves s).map (fun m => (m, static_eval (s.make_move m) piece))
      with hscored
    have hfil : [(m1, static_eval (s.make_move m1) piece),
        (m2, static_eval (s.make_move m2) piece)].Sublist
        (scored.filter (fun x => decide (x.2 = c))) := by
      have := hpair.filter (fun x => decide (x.2 = c))
      simpa [List.filter_cons, ← hc, ← heq] using this
    have hstab : (sortStable (fun a b => decide (b.2 ≤ a.2)) scored).filter
        (fun x => decide (x.2 = c)) = scored.filter (fun x => decide (x.2 = c)) := by
      refine sortStable_filter _ _ ?_ scored
      intro a b hpa hle
      simp only [decide_eq_true_eq] at hpa
      simp only [decide_eq_false_iff_not] at hle
      simp only [decide_eq_false_iff_not]
      intro hb
      exact hle (le_of_eq (hb.trans hpa.symm))
    have hfin : [(m1, static_eval (s.make_move m1) piece),
        (m2, static_eval (s.make_move m2) piece)].Sublist
        (sortStable (fun a b => decide (b.2 ≤ a.2)) scored) := by
      rw [← hstab] at hfil
      exact hfil.trans (List.filter_sublist _)
    have := hfin.map Prod.fst
    simpa [get_ordered_moves] using this

/-- Claim C8: after the entry clock check, on a non-terminal state a
depth-`d + 1` query consults the table; it replays a cached entry exactly
when the entry's stored depth is at least `d + 1`, and otherwise runs the
recursive move loop (`mDescend`) instead of returning the cached pair. -/
theorem cache_reuse_depth_guard {κ : Type} [DecidableEq κ] (key : GameState → κ)
    (piece : Player) (expired : Nat → Bool) (d : Nat) (s : GameState)
    (alpha beta : XF) (maxp : Bool) (tbl : Table κ) (t : Nat)
    (hexp : expired t = false) (hterm : s.winner = none)
    (d' : Nat) (bm : Option (Nat × Nat)) (bs : XF)
    (hfind : tbl_find tbl (key s) = some (d', bm, bs)) :
    (d + 1 ≤ d' →
      minimax key piece expired (d + 1) s alpha beta maxp tbl t = ((bm, bs), tbl, t + 1)) ∧
    (d' < d + 1 →
      minimax key piece expired (d + 1) s alpha beta maxp tbl t =
        mDescend (fun s2 a b mp tb tt => minimax key piece expired d s2 a b mp tb tt)
          key piece d s alpha beta tbl (t + 1)) := by
  constructor
  · intro h
    simp [minimax, hexp, hterm, hfind, h]
  · intro h
    have hnot : ¬ (d + 1 ≤ d') := by omega
    simp [minimax, hexp, hterm, hfind, hnot]

/-- Claim C8 (witness): a depth-3 query against an entry stored at depth 5
replays the entry unchanged. -/
theorem cache_reuse_depth_guard_witness :
    never_expired 0 = false ∧ center_board.winner = none ∧
    tbl_find [(exact_key center_board, (5, some (0, 0), XF.num 42))]
      (exact_key center_board) = some (5, some (0, 0), XF.num 42) ∧
    minimax exact_key Player.O never_expired 3 center_board XF.ninf XF.pinf true
        [(exact_key center_board, (5, some (0, 0), XF.num 42))] 0 =
      ((some (0, 0), XF.num 42),
        [(exact_key center_board, (5, some (0, 0), XF.num 42))], 1) :=
  ⟨rfl, by decide, by decide,
   (cache_reuse_depth_guard exact_key Player.O never_expired 2 center_board
     XF.ninf XF.pinf true _ 0 rfl (by decide) 5 (some (0, 0)) (XF.num 42)
     (by decide)).1 (by omega)⟩

/-- Once an iteration has recorded a best move, `choose_move_aux` can only
return a recorded move, never `none`. -/
theorem choose_move_aux_some {κ : Type} [DecidableEq κ] (key : GameState → κ)
    (piece : Player) (expired : Nat → Bool) :
    ∀ (fuel depth : Nat) (m : Nat × Nat) (s : GameState) (tbl : Table κ) (t : Nat),
      ∃ m', (choose_move_aux key piece expired fuel depth (some m) s tbl t).1 = some m' := by
  intro fuel
  induction fuel with
  | zero => exact fun depth m s tbl t => ⟨m, rfl⟩
  | succ f ih =>
    intro depth m s tbl t
    by_cases hexp : expired t = true
    · exact ⟨m, by simp [choose_move_aux, hexp]⟩
    · have hexp' : expired t = false := by simpa using hexp
      rcases hmm : minimax key piece expired depth s XF.ninf XF.pinf true tbl (t + 1) with
        ⟨⟨mv, sc⟩, tbl', t'⟩
      cases mv with
      | none => exact ⟨m, by simp [choose_move_aux, hexp', hmm]⟩
      | some m2 =>
        obtain ⟨m', hm'⟩ := ih (depth + 1) m2 s tbl' t'
        exact ⟨m', by simp [choose_move_aux, hexp', hmm, hm']⟩

/-- Claim C7 (amended): whenever `choose_move` resorts to the random
fallback, (i) the result is `get_random_move`, which is a legal move
provided at least one legal move exists (with none it is the fixed
`(0, 0)`, see the counterexample), and (ii) the fallback is taken only
when no search invocation produced a move: if the deepening loop ran at
all, its first `minimax` invocation returned no move, which also ends the
loop, so every invocation that happened returned no move. -/
theorem choose_move_fallback {κ : Type} [DecidableEq κ] (key : GameState → κ)
    (piece : Player) (expired : Nat → Bool)
    (choice : List (Nat × Nat) → Nat × Nat)
    (hchoice : ∀ l : List (Nat × Nat), l ≠ [] → choice l ∈ l)
    (fuel : Nat) (s : GameState) (tbl : Table κ) (t : Nat)
    (hfb : (choose_move_aux key piece expired fuel 1 none s tbl t).1 = none) :
    ((choose_move key piece expired choice fuel s tbl t).1 = get_random_move choice s) ∧
    (valid_moves s ≠ [] →
      (choose_move key piece expired choice fuel s tbl t).1 ∈ valid_moves s) ∧
    (∀ f, fuel = f + 1 → expired t = false →
      (minimax key piece expired 1 s XF.ninf XF.pinf true tbl (t + 1)).1.1 = none) := by
  have hcm : (choose_move key piece expired choice fuel s tbl t).1 =
      get_random_move choice s := by
    unfold choose_move
    rcases haux : choose_move_aux key piece expired fuel 1 none s tbl t with ⟨bm, tbl2, t2⟩
    have : bm = none := by rw [haux] at hfb; exact hfb
    simp [this]
  refine ⟨hcm, ?_, ?_⟩
  · intro hne
    rw [hcm]
    unfold get_random_move
    have : (valid_moves s).isEmpty = false := by
      simpa [List.isEmpty_iff] using hne
    simp only [this, Bool.false_eq_true, if_false]
    exact hchoice _ hne
  · intro f hf hexp
    subst hf
    rcases hmm : minimax key piece expired 1 s XF.ninf XF.pinf true tbl (t + 1) with
      ⟨⟨mv, sc⟩, tbl', t'⟩
    cases mv with
    | none => rfl
    | some m2 =>
      exfalso
      obtain ⟨m', hm'⟩ := choose_move_aux_some key piece expired f 2 m2 s tbl' t'
      rw [show (choose_move_aux key piece expired (f + 1) 1 none s tbl t).1 =
        (choose_move_aux key piece expired f 2 (some m2) s tbl' t').1 by
          simp [choose_move_aux, hexp, hmm]] at hfb
      rw [hm'] at hfb
      exact Option.some_ne_none m' hfb

/-- Claim C7 (witness for the amended theorem): on a won-but-open board
(no depth completes because the root is terminal) the fallback fires and
the returned move is one of the legal moves. -/
theorem choose_move_fallback_witness :
    (choose_move_aux exact_key Player.O never_expired 2 1 none won_open_board [] 0).1
      = none ∧
    (choose_move exact_key Player.O never_expired first_choice 2 won_open_board [] 0).1
      ∈ valid_moves won_open_board :=
  ⟨by decide,
   (choose_move_fallback exact_key Player.O never_expired first_choice first_choice_mem
     2 won_open_board [] 0 (by decide)).2.1 (by decide)⟩

/-- Claim C7 (counterexample): on the all-blocked board the fallback path
of `choose_move` is taken (no search depth produced a move) and it
returns `(0, 0)`, which is not a legal move of the state. -/
theorem fallback_returns_illegal_move :
    (choose_move_aux exact_key Player.O never_expired 2 1 none blocked_board [] 0).1 = none ∧
    (choose_move exact_key Player.O never_expired first_choice 2 blocked_board [] 0).1 = (0, 0) ∧
    blocked_board.is_valid_move (0, 0) = false := by
  decide

/-- Claim C9 (witness): on the centre board the two equal-scored edge
moves `(0, 1)` and `(1, 0)` keep their enumeration order in the sorted
output. -/
theorem get_ordered_moves_exact_and_stable_witness :
    ((0, 1) ∈ get_ordered_moves Player.X center_board) ∧
    [((0 : Nat), (1 : Nat)), (1, 0)].Sublist (get_ordered_moves Player.X center_board) :=
  ⟨((get_ordered_moves_exact_and_stable Player.X center_board).1 (0, 1)).mpr (by decide),
   (get_ordered_moves_exact_and_stable Player.X center_board).2.2 (0, 1) (1, 0)
     (by decide) (by decide)⟩

/-- `minimax` preserves the table-legality invariant and only ever
returns a move drawn from the ordered legal moves of its input state (or
replayed, via the invariant, from the cache). -/
theorem minimax_table_and_move {κ : Type} [DecidableEq κ] (key : GameState → κ)
    (hinj : Function.Injective key) (piece : Player) (expired : Nat → Bool) :
    ∀ (depth : Nat) (s : GameState) (alpha beta : XF) (maxp : Bool)
      (tbl : Table κ) (t : Nat), table_ok key tbl →
      table_ok key (minimax key piece expired depth s alpha beta maxp tbl t).2.1 ∧
      (∀ m, (minimax key piece expired depth s alpha beta maxp tbl t).1.1 = some m →
        s.is_valid_move m = true) := by
  intro depth
  induction depth with
  | zero =>
    intro s alpha beta maxp tbl t htbl
    by_cases hexp : expired t = true
    · refine ⟨by simpa [minimax, hexp] using htbl, ?_⟩
      intro m hm
      simp [minimax, hexp] at hm
    · have hexp' : expired t = false := by simpa using hexp
      rcases hq : quiescence_search piece expired 6 s alpha beta maxp (t + 1) with ⟨v, t'⟩
      refine ⟨by simpa [minimax, hexp', mmLeaf, hq] using htbl, ?_⟩
      intro m hm
      simp [minimax, hexp', mmLeaf, hq] at hm
  | succ d ih =>
    intro s alpha beta maxp tbl t htbl
    by_cases hexp : expired t = true
    · refine ⟨by simpa [minimax, hexp] using htbl, ?_⟩
      intro m hm
      simp [minimax, hexp] at hm
    · have hexp' : expired t = false := by simpa using hexp
      by_cases hwin : (s.winner).isSome = true
      · rcases hq : quiescence_search piece expired 6 s alpha beta maxp (t + 1) with ⟨v, t'⟩
        refine ⟨by simpa [minimax, hexp', hwin, mmLeaf, hq] using htbl, ?_⟩
        intro m hm
        simp [minimax, hexp', hwin, mmLeaf, hq] at hm
      · have hwin' : (s.winner).isSome = false := by simpa using hwin
        have hdesc : table_ok key
            ((mDescend (fun s2 a b mp tb tt => minimax key piece expired d s2 a b mp tb tt)
              key piece d s alpha beta tbl (t + 1)).2.1) ∧
            (∀ m, (mDescend (fun s2 a b mp tb tt => minimax key piece expired d s2 a b mp tb tt)
              key piece d s alpha beta tbl (t + 1)).1.1 = some m →
              s.is_valid_move m = true) := by
          have hrec : ∀ s2 a b mp tb tt, table_ok key tb →
              table_ok key (minimax key piece expired d s2 a b mp tb tt).2.1 :=
            fun s2 a b mp tb tt htb => (ih s2 a b mp tb tt htb).1
          have hfold := foldl_preserves
            (fun acc : MState κ => table_ok key acc.tbl ∧
              ∀ m', acc.best_move = some m' → s.is_valid_move m' = true)
            (fun m => s.is_valid_move m = true)
            (mStep (fun s2 a b mp tb tt => minimax key piece expired d s2 a b mp tb tt)
              (s.next_player == piece) s)
            (get_ordered_moves piece s)
            (fun m hm => mem_ordered_valid piece s m hm)
            (fun acc m hm hacc => mStep_preserves _ hrec _ s acc m hm hacc)
            { best_move := none,
              best_score := if s.next_player == piece then XF.ninf else XF.pinf,
              alpha := alpha, beta := beta, done := false, tbl := tbl, t := t + 1 }
            ⟨htbl, by simp⟩
          constructor
          · simp only [mDescend]
            exact table_ok_insert hinj hfold.1 s (d + 1) _ _ hfold.2
          · intro m hm
            simp only [mDescend] at hm
            exact hfold.2 m hm
        rcases hfind : tbl_find tbl (key s) with - | ⟨d', bm, bs⟩
        · constructor
          · simpa [minimax, hexp', hwin', hfind] using hdesc.1
          · intro m hm
            refine hdesc.2 m ?_
            simpa [minimax, hexp', hwin', hfind] using hm
        · by_cases hle : d + 1 ≤ d'
          · constructor
            · simpa [minimax, hexp', hwin', hfind, hle] using htbl
            · intro m hm
              have hbm : bm = some m := by
                simpa [minimax, hexp', hwin', hfind, hle] using hm
              exact htbl s d' m bs (hbm ▸ hfind)
          · constructor
            · simpa [minimax, hexp', hwin', hfind, hle] using hdesc.1
            · intro m hm
              refine hdesc.2 m ?_
              simpa [minimax, hexp', hwin', hfind, hle] using hm

/-- The iterative-deepening loop only records legal moves and preserves
the table invariant. -/
theorem choose_move_aux_valid {κ : Type} [DecidableEq κ] (key : GameState → κ)
    (hinj : Function.Injective key) (piece : Player) (expired : Nat → Bool) :
    ∀ (fuel depth : Nat) (bm : Option (Nat × Nat)) (s : GameState)
      (tbl : Table κ) (t : Nat), table_ok key tbl →
      (∀ m, bm = some m → s.is_valid_move m = true) →
      ∀ m, (choose_move_aux key piece expired fuel depth bm s tbl t).1 = some m →
        s.is_valid_move m = true := by
  intro fuel
  induction fuel with
  | zero =>
    intro depth bm s tbl t htbl hbm m hm
    exact hbm m hm
  | succ f ih =>
    intro depth bm s tbl t htbl hbm m hm
    by_cases hexp : expired t = true
    · exact hbm m (by simpa [choose_move_aux, hexp] using hm)
    · have hexp' : expired t = false := by simpa using hexp
      rcases hmm : minimax key piece expired depth s XF.ninf XF.pinf true tbl (t + 1) with
        ⟨⟨mv, sc⟩, tbl', t'⟩
      have hmx := minimax_table_and_move key hinj piece expired depth s
        XF.ninf XF.pinf true tbl (t + 1) htbl
      rw [hmm] at hmx
      cases mv with
      | none => exact hbm m (by simpa [choose_move_aux, hexp', hmm] using hm)
      | some m2 =>
        have hm2 : s.is_valid_move m2 = true := hmx.2 m2 rfl
        refine ih (depth + 1) (some m2) s tbl' t' hmx.1 ?_ m ?_
        · intro m3 hm3
          exact (Option.some.inj hm3) ▸ hm2
        · simpa [choose_move_aux, hexp', hmm] using hm

/-- Claim C10: if the key function never collides (modelling a run in
which no two distinct states share a `hash_state` key), the table
satisfies the legality invariant (as the agent's initially empty table
does), and `choose_move`'s deepening loop produced a move — so the random
fallback is not taken — then `choose_move` returns exactly that move and
it is a legal move of the input state.  This covers both moves found by
the recursion (drawn from `get_ordered_moves`) and moves replayed from
transposition-cache hits (via the table invariant). -/
theorem search_move_is_legal {κ : Type} [DecidableEq κ] (key : GameState → κ)
    (hinj : Function.Injective key) (piece : Player) (expired : Nat → Bool)
    (choice : List (Nat × Nat) → Nat × Nat) (fuel : Nat) (s : GameState)
    (tbl : Table κ) (htbl : table_ok key tbl) (t : Nat) (m : Nat × Nat)
    (hsearch : (choose_move_aux key piece expired fuel 1 none s tbl t).1 = some m) :
    s.is_valid_move m = true ∧
    (choose_move key piece expired choice fuel s tbl t).1 = m := by
  constructor
  · exact choose_move_aux_valid key hinj piece expired fuel 1 none s tbl t htbl
      (by simp) m hsearch
  · unfold choose_move
    rcases haux : choose_move_aux key piece expired fuel 1 none s tbl t with ⟨bm, tbl2, t2⟩
    have hbm : bm = some m := by rw [haux] at hsearch; exact hsearch
    simp [hbm]

/-- Unpacking the legality predicate. -/
theorem valid_move_parts (s : GameState) (m : Nat × Nat) (h : s.is_valid_move m = true) :
    m.1 < s.w ∧ m.2 < s.h ∧ s.cell m.2 m.1 = Cell.empty := by
  unfold GameState.is_valid_move at h
  simp only [Bool.and_eq_true, decide_eq_true_eq, beq_iff_eq] at h
  exact ⟨h.1.1, h.1.2, h.2⟩

/-- After playing `m1`, the cell of a different legal move `m2` is still
empty. -/
theorem make_move_cell_other (s : GameState) (m1 m2 : Nat × Nat)
    (h1 : s.is_valid_move m1 = true) (h2 : s.is_valid_move m2 = true)
    (hne : m1 ≠ m2) : (s.make_move m1).cell m2.2 m2.1 = Cell.empty := by
  obtain ⟨hx1, hy1, hc1⟩ := valid_move_parts s m1 h1
  obtain ⟨hx2, hy2, hc2⟩ := valid_move_parts s m2 h2
  have hc2' := hc2
  unfold GameState.cell at hc2'
  unfold GameState.make_move GameState.cell
  by_cases hr : m1.2 = m2.2
  · have hcol : m1.1 ≠ m2.1 := by
      intro hcc
      exact hne (Prod.ext hcc hr)
    have hlen : m1.2 < s.board.length := by simpa [GameState.h] using hy1
    simp only [List.getD_eq_getElem?_getD]
    rw [← hr, List.getElem?_set_self hlen]
    simp only [Option.getD_some]
    rw [List.getElem?_set_ne hcol]
    rw [hr]
    simpa [List.getD_eq_getElem?_getD] using hc2'
  · simp only [List.getD_eq_getElem?_getD]
    rw [List.getElem?_set_ne hr]
    simpa [List.getD_eq_getElem?_getD] using hc2'

/-- After playing `m`, the played cell holds the mover's piece. -/
theorem make_move_cell_self (s : GameState) (m : Nat × Nat)
    (h : s.is_valid_move m = true) :
    (s.make_move m).cell m.2 m.1 = s.next_player.cell := by
  obtain ⟨hx, hy, hc⟩ := valid_move_parts s m h
  have hlen : m.2 < s.board.length := by simpa [GameState.h] using hy
  have hrow : m.1 < (s.board.getD m.2 []).length := by
    by_contra hcon
    push_neg at hcon
    have hnone : (s.board.getD m.2 [])[m.1]? = none := List.getElem?_eq_none hcon
    have hblk : s.cell m.2 m.1 = Cell.block := by
      unfold GameState.cell
      rw [List.getD_eq_getElem?_getD, hnone]
      rfl
    rw [hblk] at hc
    exact Cell.noConfusion hc
  unfold GameState.make_move GameState.cell
  have h1 : (s.board.set m.2 ((s.board.getD m.2 []).set m.1 s.next_player.cell)).getD m.2 []
      = (s.board.getD m.2 []).set m.1 s.next_player.cell := by
    rw [List.getD_eq_getElem?_getD, List.getElem?_set_self hlen]
    rfl
  rw [h1, List.getD_eq_getElem?_getD, List.getElem?_set_self hrow]
  rfl

/-- A piece cell is never empty. -/
theorem player_cell_ne_empty (p : Player) : p.cell ≠ Cell.empty := by
  cases p <;> simp [Player.cell]

/-- Distinct legal moves lead to distinct successor states. -/
theorem make_move_ne (s : GameState) (m1 m2 : Nat × Nat)
    (h1 : s.is_valid_move m1 = true) (h2 : s.is_valid_move m2 = true)
    (hne : m1 ≠ m2) : s.make_move m1 ≠ s.make_move m2 := by
  intro heq
  have hcell := congrArg (fun st => st.cell m2.2 m2.1) heq
  simp only at hcell
  rw [make_move_cell_other s m1 m2 h1 h2 hne, make_move_cell_self s m2 h2] at hcell
  exact player_cell_ne_empty _ hcell.symm

/-- `get_ordered_moves` never repeats a move. -/
theorem get_ordered_moves_nodup (piece : Player) (s : GameState) :
    (get_ordered_moves piece s).Nodup :=
  ((get_ordered_moves_perm piece s).nodup_iff).mpr (valid_moves_nodup s)

/-- With the deadline never reached, a depth-0 search returns the same
no-move/score pair and tick with and without the cache, and leaves the
table untouched. -/
theorem minimax_zero_agree {κ : Type} [DecidableEq κ] (key : GameState → κ)
    (piece : Player) (s2 : GameState) (a b : XF) (mp : Bool) (tb : Table κ) (tt : Nat) :
    (minimax key piece never_expired 0 s2 a b mp tb tt).1 =
      (minimax_nc piece never_expired 0 s2 a b mp tt).1 ∧
    (minimax key piece never_expired 0 s2 a b mp tb tt).2.2 =
      (minimax_nc piece never_expired 0 s2 a b mp tt).2 ∧
    (minimax key piece never_expired 0 s2 a b mp tb tt).2.1 = tb := by
  rcases hq : quiescence_search piece never_expired 6 s2 a b mp (tt + 1) with ⟨v, t'⟩
  refine ⟨?_, ?_, ?_⟩ <;> simp [minimax, minimax_nc, never_expired, mmLeaf, hq]

/-- Generic loop comparison: if the child searches agree in result and
tick under a per-child table condition `P` — preserved whenever the table
changes only at the key of the child just searched — then the cached and
uncached move loops track each other exactly in best move, best score,
window, break flag and tick. -/
theorem loop_nc_eq {κ : Type} [DecidableEq κ] (key : GameState → κ)
    (s : GameState) (P : Table κ → GameState → Prop)
    (recurM : GameState → XF → XF → Bool → Table κ → Nat →
      (Option (Nat × Nat) × XF) × Table κ × Nat)
    (recurN : GameState → XF → XF → Bool → Nat → (Option (Nat × Nat) × XF) × Nat)
    (hagree : ∀ s2 a b mp tb tt, P tb s2 →
      ((recurM s2 a b mp tb tt).1 = (recurN s2 a b mp tt).1 ∧
       (recurM s2 a b mp tb tt).2.2 = (recurN s2 a b mp tt).2 ∧
       (∀ k', k' ≠ key s2 →
         tbl_find (recurM s2 a b mp tb tt).2.1 k' = tbl_find tb k')))
    (hpres : ∀ (tb tb' : Table κ) (s2 s3 : GameState), P tb s3 → s3 ≠ s2 →
      (∀ k', k' ≠ key s2 → tbl_find tb' k' = tbl_find tb k') → P tb' s3) :
    ∀ (moves : List (Nat × Nat)), (∀ m ∈ moves, s.is_valid_move m = true) →
      moves.Nodup → ∀ (is_max : Bool) (accM : MState κ) (accN : NState),
      accM.best_move = accN.best_move → accM.best_score = accN.best_score →
      accM.alpha = accN.alpha → accM.beta = accN.beta → accM.done = accN.done →
      accM.t = accN.t →
      (∀ m ∈ moves, P accM.tbl (s.make_move m)) →
      ((moves.foldl (mStep recurM is_max s) accM).best_move =
         (moves.foldl (nStep recurN is_max s) accN).best_move ∧
       (moves.foldl (mStep recurM is_max s) accM).best_score =
         (moves.foldl (nStep recurN is_max s) accN).best_score ∧
       (moves.foldl (mStep recurM is_max s) accM).t =
         (moves.foldl (nStep recurN is_max s) accN).t) := by
  intro moves
  induction moves with
  | nil =>
    intro _ _ is_max accM accN hbm hbs ha hb hd ht _
    exact ⟨hbm, hbs, ht⟩
  | cons m0 rest ih =>
    intro hsub hnd is_max accM accN hbm hbs ha hb hd ht hP
    obtain ⟨hm0r, hndr⟩ := List.nodup_cons.mp hnd
    simp only [List.foldl_cons]
    by_cases hdone : accM.done = true
    · have hdoneN : accN.done = true := hd ▸ hdone
      have hM : mStep recurM is_max s accM m0 = accM := by simp [mStep, hdone]
      have hN : nStep recurN is_max s accN m0 = accN := by simp [nStep, hdoneN]
      rw [hM, hN]
      exact ih (fun m hm => hsub m (List.mem_cons_of_mem _ hm)) hndr is_max accM accN
        hbm hbs ha hb hd ht (fun m hm => hP m (List.mem_cons_of_mem _ hm))
    · have hdone' : accM.done = false := by simpa using hdone
      have hdoneN : accN.done = false := hd ▸ hdone'
      have hPm0 : P accM.tbl (s.make_move m0) := hP m0 (List.mem_cons_self _ _)
      obtain ⟨hag1, hag2, hag3⟩ := hagree (s.make_move m0) accM.alpha accM.beta (!is_max)
        accM.tbl accM.t hPm0
      rcases hcM : recurM (s.make_move m0) accM.alpha accM.beta (!is_max) accM.tbl accM.t with
        ⟨⟨mvM, scM⟩, tbM, tM⟩
      rcases hcN : recurN (s.make_move m0) accN.alpha accN.beta (!is_max) accN.t with
        ⟨⟨mvN, scN⟩, tN⟩
      rw [← ha, ← hb, ← ht] at hcN
      rw [hcM, hcN] at hag1 hag2
      rw [hcM] at hag3
      have hsc : scM = scN := congrArg Prod.snd hag1
      have htick : tM = tN := hag2
      have hstep : (mStep recurM is_max s accM m0).best_move =
            (nStep recurN is_max s accN m0).best_move ∧
          (mStep recurM is_max s accM m0).best_score =
            (nStep recurN is_max s accN m0).best_score ∧
          (mStep recurM is_max s accM m0).alpha = (nStep recurN is_max s accN m0).alpha ∧
          (mStep recurM is_max s accM m0).beta = (nStep recurN is_max s accN m0).beta ∧
          (mStep recurM is_max s accM m0).done = (nStep recurN is_max s accN m0).done ∧
          (mStep recurM is_max s accM m0).t = (nStep recurN is_max s accN m0).t ∧
          (mStep recurM is_max s accM m0).tbl = tbM := by
        unfold mStep nStep
        rw [hdone', hdoneN]
        simp only [Bool.false_eq_true, if_false, hcM, hcN, ← ha, ← hb, ← hbm, ← hbs, ← ht,
          hsc, htick]
        by_cases hmax : is_max = true
        · subst hmax
          simp
        · have hmax' : is_max = false := by simpa using hmax
          subst hmax'
          simp
      have hPrest : ∀ m ∈ rest, P (mStep recurM is_max s accM m0).tbl (s.make_move m) := by
        intro m hm
        have hmP := hP m (List.mem_cons_of_mem _ hm)
        rw [hstep.2.2.2.2.2.2]
        refine hpres accM.tbl tbM (s.make_move m0) (s.make_move m) hmP ?_ hag3
        exact make_move_ne s m m0 (hsub m (List.mem_cons_of_mem _ hm))
          (hsub m0 (List.mem_cons_self _ _))
          (fun hmm => hm0r (hmm ▸ hm))
      exact ih (fun m hm => hsub m (List.mem_cons_of_mem _ hm)) hndr is_max
        (mStep recurM is_max s accM m0) (nStep recurN is_max s accN m0)
        hstep.1 hstep.2.1 hstep.2.2.1 hstep.2.2.2.1 hstep.2.2.2.2.1 hstep.2.2.2.2.2.1
        hPrest

/-- A loop whose children are depth-0 searches leaves the table alone. -/
theorem loop_zero_tbl {κ : Type} [DecidableEq κ] (key : GameState → κ)
    (piece : Player) (s : GameState) :
    ∀ (moves : List (Nat × Nat)) (is_max : Bool) (accM : MState κ),
      (moves.foldl (mStep
        (fun s2 a b mp tb tt => minimax key piece never_expired 0 s2 a b mp tb tt)
        is_max s) accM).tbl = accM.tbl := by
  intro moves
  induction moves with
  | nil => intro is_max accM; rfl
  | cons m0 rest ih =>
    intro is_max accM
    simp only [List.foldl_cons]
    rw [ih]
    rw [mStep_tbl]
    by_cases hdone : accM.done = true
    · simp [hdone]
    · have hdone' : accM.done = false := by simpa using hdone
      simp only [hdone', Bool.false_eq_true, if_false]
      exact (minimax_zero_agree key piece (s.make_move m0) accM.alpha accM.beta
        (!is_max) accM.tbl accM.t).2.2

/-- With the deadline never reached and its own key absent from the table,
a depth-1 search agrees with the cache-disabled search in result and tick,
and changes the table at most under its own key. -/
theorem minimax_one_agree {κ : Type} [DecidableEq κ] (key : GameState → κ)
    (piece : Player) (s2 : GameState) (a b : XF) (mp : Bool) (tb : Table κ) (tt : Nat)
    (hmiss : tbl_find tb (key s2) = none) :
    (minimax key piece never_expired 1 s2 a b mp tb tt).1 =
      (minimax_nc piece never_expired 1 s2 a b mp tt).1 ∧
    (minimax key piece never_expired 1 s2 a b mp tb tt).2.2 =
      (minimax_nc piece never_expired 1 s2 a b mp tt).2 ∧
    (∀ k', k' ≠ key s2 →
      tbl_find (minimax key piece never_expired 1 s2 a b mp tb tt).2.1 k' =
        tbl_find tb k') := by
  by_cases hwin : (s2.winner).isSome = true
  · rcases hq : quiescence_search piece never_expired 6 s2 a b mp (tt + 1) with ⟨v, t'⟩
    refine ⟨?_, ?_, fun k' hk' => ?_⟩ <;>
      simp [minimax, minimax_nc, never_expired, hwin, mmLeaf, hq]
  · have hwin' : (s2.winner).isSome = false := by simpa using hwin
    have hloop := loop_nc_eq key s2 (fun _ _ => True)
      (fun s3 a3 b3 mp3 tb3 tt3 => minimax key piece never_expired 0 s3 a3 b3 mp3 tb3 tt3)
      (fun s3 a3 b3 mp3 tt3 => minimax_nc piece never_expired 0 s3 a3 b3 mp3 tt3)
      (fun s3 a3 b3 mp3 tb3 tt3 _ => by
        obtain ⟨h1, h2, h3⟩ := minimax_zero_agree key piece s3 a3 b3 mp3 tb3 tt3
        exact ⟨h1, h2, fun k' _ => by rw [h3]⟩)
      (fun _ _ _ _ _ _ _ => trivial)
      (get_ordered_moves piece s2) (fun m hm => mem_ordered_valid piece s2 m hm)
      (get_ordered_moves_nodup piece s2) (s2.next_player == piece)
      { best_move := none,
        best_score := if s2.next_player == piece then XF.ninf else XF.pinf,
        alpha := a, beta := b, done := false, tbl := tb, t := tt + 1 }
      { best_move := none,
        best_score := if s2.next_player == piece then XF.ninf else XF.pinf,
        alpha := a, beta := b, done := false, t := tt + 1 }
      rfl rfl rfl rfl rfl rfl (fun _ _ => trivial)
    have htbl := loop_zero_tbl key piece s2 (get_ordered_moves piece s2)
      (s2.next_player == piece)
      { best_move := none,
        best_score := if s2.next_player == piece then XF.ninf else XF.pinf,
        alpha := a, beta := b, done := false, tbl := tb, t := tt + 1 }
    refine ⟨?_, ?_, fun k' hk' => ?_⟩
    · simp only [minimax, minimax_nc, never_expired, hwin', hmiss, mDescend, mmLeaf,
        Bool.false_eq_true, if_false] at hloop ⊢
      exact Prod.ext hloop.1 hloop.2.1
    · simp only [minimax, minimax_nc, never_expired, hwin', hmiss, mDescend, mmLeaf,
        Bool.false_eq_true, if_false] at hloop ⊢
      exact hloop.2.2
    · simp only [minimax, minimax_nc, never_expired, hwin', hmiss, mDescend, mmLeaf,
        Bool.false_eq_true, if_false] at htbl ⊢
      rw [tbl_find_insert, if_neg (fun hkey => hk' hkey.symm), htbl]

/-- Claim C5 (amended): for searches of depth at most 2 — too shallow for
any position to repeat inside the tree — the cache-enabled search from an
empty table returns the same score as the cache-disabled search, for every
state, window, side and tick, with the deadline never reached and a
collision-free key.  From depth 4 on the scores can differ (see the
counterexample), because entries store alpha-beta cutoff bounds that are
replayed as exact values when a position repeats. -/
theorem cache_no_effect_shallow {κ : Type} [DecidableEq κ] (key : GameState → κ)
    (hinj : Function.Injective key) (piece : Player) (depth : Nat) (hd : depth ≤ 2)
    (s : GameState) (alpha beta : XF) (maxp : Bool) (t : Nat) :
    (minimax key piece never_expired depth s alpha beta maxp [] t).1.2 =
      (minimax_nc piece never_expired depth s alpha beta maxp t).1.2 := by
  have hfindnil : ∀ k : κ, tbl_find ([] : Table κ) k = none := fun k => by simp [tbl_find]
  interval_cases depth
  · exact congrArg Prod.snd (minimax_zero_agree key piece s alpha beta maxp [] t).1
  · exact congrArg Prod.snd
      (minimax_one_agree key piece s alpha beta maxp [] t (hfindnil _)).1
  · by_cases hwin : (s.winner).isSome = true
    · rcases hq : quiescence_search piece never_expired 6 s alpha beta maxp (t + 1) with
        ⟨v, t'⟩
      simp [minimax, minimax_nc, never_expired, hwin, mmLeaf, hq]
    · have hwin' : (s.winner).isSome = false := by simpa using hwin
      have hloop := loop_nc_eq key s
        (fun tb s2 => tbl_find tb (key s2) = none)
        (fun s3 a3 b3 mp3 tb3 tt3 => minimax key piece never_expired 1 s3 a3 b3 mp3 tb3 tt3)
        (fun s3 a3 b3 mp3 tt3 => minimax_nc piece never_expired 1 s3 a3 b3 mp3 tt3)
        (fun s3 a3 b3 mp3 tb3 tt3 hm => minimax_one_agree key piece s3 a3 b3 mp3 tb3 tt3 hm)
        (fun tb tb' s2 s3 hm hne hchar => by
          show tbl_find tb' (key s3) = none
          rw [hchar (key s3) (fun hkey => hne (hinj hkey))]
          exact hm)
        (get_ordered_moves piece s) (fun m hm => mem_ordered_valid piece s m hm)
        (get_ordered_moves_nodup piece s) (s.next_player == piece)
        { best_move := none,
          best_score := if s.next_player == piece then XF.ninf else XF.pinf,
          alpha := alpha, beta := beta, done := false, tbl := [], t := t + 1 }
        { best_move := none,
          best_score := if s.next_player == piece then XF.ninf else XF.pinf,
          alpha := alpha, beta := beta, done := false, t := t + 1 }
        rfl rfl rfl rfl rfl rfl (fun m _ => hfindnil _)
      simp only [minimax, minimax_nc, never_expired, hfindnil, mDescend, mmLeaf,
        Bool.false_eq_true, if_false, hwin'] at hloop ⊢
      exact hloop.2.1

/-- `XF.le` is reflexive. -/
theorem xf_le_refl (a : XF) : XF.le a a = true := by
  cases a <;> simp [XF.le]

/-- `XF.le` is transitive. -/
theorem xf_le_trans {a b c : XF} (h1 : XF.le a b = true) (h2 : XF.le b c = true) :
    XF.le a c = true := by
  cases a <;> cases b <;> cases c <;> simp_all [XF.le] <;> linarith

/-- A quiescence loop iteration does nothing on a non-terminal child. -/
theorem qStep_skip (recur : GameState → XF → XF → Bool → Nat → XF × Nat)
    (mp : Bool) (s2 : GameState) (acc : QState) (m : Nat × Nat)
    (hm : (((s2.make_move m).winner)).isSome = false) :
    qStep recur mp s2 acc m = acc := by
  unfold qStep
  by_cases hres : acc.result.isSome = true
  · simp [hres]
  · have hres' : acc.result.isSome = false := by simpa using hres
    simp [hres', hm]

/-- The quiescence loop does nothing when every child is non-terminal. -/
theorem qfold_skip (recur : GameState → XF → XF → Bool → Nat → XF × Nat)
    (mp : Bool) (s2 : GameState) :
    ∀ (moves : List (Nat × Nat)),
      (∀ m ∈ moves, (((s2.make_move m).winner)).isSome = false) →
      ∀ acc, moves.foldl (qStep recur mp s2) acc = acc
  | [], _, acc => rfl
  | m :: rest, h, acc => by
    simp only [List.foldl_cons, qStep_skip recur mp s2 acc m (h m (List.mem_cons_self _ _))]
    exact qfold_skip recur mp s2 rest (fun m2 hm2 => h m2 (List.mem_cons_of_mem _ hm2)) acc

/-- Value of a minimizing depth-0 search on a position with no terminal
children: the stand-pat evaluation, clamped from below at `alpha` (the
fail-hard quiescence return), with no table change and two clock reads. -/
theorem minimax_zero_value {κ : Type} [DecidableEq κ] (key : GameState → κ)
    (piece : Player) (s2 : GameState) (α : XF) (tb : Table κ) (tt : Nat)
    (hgrand : ∀ m ∈ valid_moves s2, (((s2.make_move m).winner)).isSome = false) :
    minimax key piece never_expired 0 s2 α XF.pinf false tb tt =
      ((none, if XF.le (XF.num (static_eval s2 piece)) α then α
        else XF.num (static_eval s2 piece)), tb, tt + 2) := by
  have hford : ∀ m ∈ get_ordered_moves piece s2, (((s2.make_move m).winner)).isSome = false :=
    fun m hm => hgrand m ((get_ordered_moves_perm piece s2).subset hm)
  have hq : quiescence_search piece never_expired 6 s2 α XF.pinf false (tt + 1) =
      (if XF.le (XF.num (static_eval s2 piece)) α then α
       else XF.num (static_eval s2 piece), tt + 2) := by
    by_cases hsp : XF.le (XF.num (static_eval s2 piece)) α = true
    · simp [quiescence_search, never_expired, hsp]
    · have hsp' : XF.le (XF.num (static_eval s2 piece)) α = false := by simpa using hsp
      have hfold := qfold_skip
        (fun s3 a3 b3 mp3 tt3 => quiescence_search piece never_expired 5 s3 a3 b3 mp3 tt3)
        false s2 (get_ordered_moves piece s2) hford
        ⟨α, XF.min XF.pinf (XF.num (static_eval s2 piece)), none, tt + 1 + 1⟩
      have hunf : quiescence_search piece never_expired 6 s2 α XF.pinf false (tt + 1) =
          (if XF.le (XF.num (static_eval s2 piece)) α then (α, tt + 1 + 1)
           else
             (let r := List.foldl
               (qStep (fun s3 a3 b3 mp3 tt3 =>
                 quiescence_search piece never_expired 5 s3 a3 b3 mp3 tt3) false s2)
               ⟨α, XF.min XF.pinf (XF.num (static_eval s2 piece)), none, tt + 1 + 1⟩
               (get_ordered_moves piece s2)
             (match r.result with
              | some v => v
              | none => r.beta, r.t))) := rfl
      rw [hunf, if_neg (by simp [hsp']), hfold, if_neg (by simp [hsp'])]
      rfl
  simp [minimax, never_expired, mmLeaf, hq]

/-- The maximizing depth-1 move loop over children with no terminal
grandchildren: the running best is always a real evaluation, every
processed move's evaluation is dominated, and the best only improves. -/
theorem root_loop {κ : Type} [DecidableEq κ] (key : GameState → κ) (piece : Player)
    (s : GameState) :
    ∀ (ms : List (Nat × Nat)),
      (∀ m ∈ ms, s.is_valid_move m = true ∧
        (∀ m2 ∈ valid_moves (s.make_move m),
          ((((s.make_move m).make_move m2).winner)).isSome = false)) →
      ∀ (acc : MState κ), acc.beta = XF.pinf → acc.done = false →
        acc.alpha = acc.best_score →
        ((acc.best_move = none ∧ acc.best_score = XF.ninf) ∨
          (∃ m0, acc.best_move = some m0 ∧
            acc.best_score = XF.num (static_eval (s.make_move m0) piece))) →
        ∀ r, r = ms.foldl (mStep (fun s2 a b mp tb tt =>
            minimax key piece never_expired 0 s2 a b mp tb tt) true s) acc →
        (((r.best_move = acc.best_move ∧ r.best_score = acc.best_score) ∨
          (∃ m', m' ∈ ms ∧ r.best_move = some m' ∧
            r.best_score = XF.num (static_eval (s.make_move m') piece))) ∧
         (∀ m ∈ ms, XF.le (XF.num (static_eval (s.make_move m) piece)) r.best_score = true) ∧
         XF.le acc.best_score r.best_score = true) := by
  intro ms
  induction ms with
  | nil =>
    intro _ acc hβ hdone hα hbest r hr
    refine ⟨Or.inl ⟨by rw [hr, List.foldl_nil], by rw [hr, List.foldl_nil]⟩, by simp, ?_⟩
    rw [hr, List.foldl_nil]
    exact xf_le_refl _
  | cons m0 rest ih =>
    intro hms acc hβ hdone hα hbest r hr
    obtain ⟨hv0, hg0⟩ := hms m0 (List.mem_cons_self _ _)
    have hmsr : ∀ m ∈ rest, s.is_valid_move m = true ∧
        (∀ m2 ∈ valid_moves (s.make_move m),
          ((((s.make_move m).make_move m2).winner)).isSome = false) :=
      fun m hm => hms m (List.mem_cons_of_mem _ hm)
    -- one step
    have hchild := minimax_zero_value key piece (s.make_move m0) acc.alpha acc.tbl acc.t hg0
    set sp0 : ℚ := static_eval (s.make_move m0) piece with hsp0
    set v : XF := if XF.le (XF.num sp0) acc.alpha then acc.alpha else XF.num sp0 with hv
    have hstep : mStep (fun s2 a b mp tb tt =>
        minimax key piece never_expired 0 s2 a b mp tb tt) true s acc m0 =
        { best_move := if XF.lt acc.best_score v then some m0 else acc.best_move,
          best_score := if XF.lt acc.best_score v then v else acc.best_score,
          alpha := XF.max acc.alpha (if XF.lt acc.best_score v then v else acc.best_score),
          beta := acc.beta,
          done := XF.le acc.beta
            (XF.max acc.alpha (if XF.lt acc.best_score v then v else acc.best_score)),
          tbl := acc.tbl, t := acc.t + 2 } := by
      unfold mStep
      rw [hdone]
      simp only [Bool.false_eq_true, if_false, Bool.not_true, hβ, hchild]
      by_cases hlt : XF.lt acc.best_score v = true
      · simp [hlt, ← hv]
      · have hlt' : XF.lt acc.best_score v = false := by simpa using hlt
        simp [hlt', ← hv]
    -- the new accumulator still satisfies the invariant
    rcases hbest with ⟨hbm, hbs⟩ | ⟨m1, hbm, hbs⟩
    · -- starting from -inf: the first child always becomes the best
      have hα' : acc.alpha = XF.ninf := hα.trans hbs
      have hvv : v = XF.num sp0 := by rw [hv, hα']; simp [XF.le]
      have hlt : XF.lt acc.best_score v = true := by
        rw [hbs, hvv]; simp [XF.lt, XF.le]
      have hmax : XF.max acc.alpha v = v := by
        rw [hα', hvv]; simp [XF.max, XF.le]
      have hdone2 : XF.le acc.beta (XF.max acc.alpha v) = false := by
        rw [hβ, hmax, hvv]; simp [XF.le]
      have hacc2 := ih hmsr
        (mStep (fun s2 a b mp tb tt =>
          minimax key piece never_expired 0 s2 a b mp tb tt) true s acc m0)
        (by rw [hstep, hβ]) (by rw [hstep]; simp only [hlt, if_true]; exact hdone2)
        (by rw [hstep]; simp only [hlt, if_true]; exact hmax)
        (Or.inr ⟨m0, by rw [hstep]; simp only [hlt, if_true], by
          rw [hstep]; simp only [hlt, if_true]; exact hvv⟩)
        r (by rw [hr, List.foldl_cons])
      refine ⟨?_, ?_, ?_⟩
      · rcases hacc2.1 with ⟨h1, h2⟩ | ⟨m', hm', h1, h2⟩
        · refine Or.inr ⟨m0, List.mem_cons_self _ _, ?_, ?_⟩
          · rw [h1, hstep]; simp only [hlt, if_true]
          · rw [h2, hstep]; simp only [hlt, if_true]; exact hvv
        · exact Or.inr ⟨m', List.mem_cons_of_mem _ hm', h1, h2⟩
      · intro m hm
        rcases List.mem_cons.mp hm with hm | hm
        · subst hm
          refine xf_le_trans ?_ hacc2.2.2
          rw [hstep]; simp only [hlt, if_true]
          rw [hvv]; simp [XF.le]
        · exact hacc2.2.1 m hm
      · refine xf_le_trans ?_ hacc2.2.2
        rw [hstep, hbs]; simp [XF.le]
    · -- the running best is the evaluation of m1
      have hα' : acc.alpha = XF.num (static_eval (s.make_move m1) piece) := hα.trans hbs
      by_cases hle : XF.le (XF.num sp0) acc.alpha = true
      · -- dominated child: nothing changes
        have hvv : v = acc.alpha := by rw [hv, hle]; simp
        have hlt : XF.lt acc.best_score v = false := by
          rw [hvv, ← hα]; simp [XF.lt, xf_le_refl]
        have hmax : XF.max acc.alpha acc.best_score = acc.best_score := by
          rw [hα]; simp [XF.max, xf_le_refl]
        have hdone2 : XF.le acc.beta (XF.max acc.alpha acc.best_score) = false := by
          rw [hβ, hmax, hbs]; simp [XF.le]
        have hacc2 := ih hmsr
          (mStep (fun s2 a b mp tb tt =>
            minimax key piece never_expired 0 s2 a b mp tb tt) true s acc m0)
          (by rw [hstep, hβ]) (by rw [hstep]; simp only [hlt, if_false]; exact hdone2)
          (by rw [hstep]; simp only [hlt, if_false]; exact hmax)
          (Or.inr ⟨m1, by rw [hstep]; simp only [hlt, if_false]; exact hbm, by
            rw [hstep]; simp only [hlt, if_false]; exact hbs⟩)
          r (by rw [hr, List.foldl_cons])
        refine ⟨?_, ?_, ?_⟩
        · rcases hacc2.1 with ⟨h1, h2⟩ | ⟨m', hm', h1, h2⟩
          · refine Or.inl ⟨?_, ?_⟩
            · rw [h1, hstep]; simp only [hlt, Bool.false_eq_true, if_false]
            · rw [h2, hstep]; simp only [hlt, Bool.false_eq_true, if_false]
          · exact Or.inr ⟨m', List.mem_cons_of_mem _ hm', h1, h2⟩
        · intro m hm
          rcases List.mem_cons.mp hm with hm | hm
          · subst hm
            refine xf_le_trans ?_ hacc2.2.2
            rw [hstep]; simp only [hlt, if_false]
            rw [← hα]; exact hle
          · exact hacc2.2.1 m hm
        · refine xf_le_trans ?_ hacc2.2.2
          rw [hstep]; simp only [hlt, if_false]
          exact xf_le_refl _
      · -- improving child: m0 becomes the best
        have hle' : XF.le (XF.num sp0) acc.alpha = false := by simpa using hle
        have hvv : v = XF.num sp0 := by rw [hv, hle']; simp
        have hlt : XF.lt acc.best_score v = true := by
          rw [hvv, ← hα]
          unfold XF.lt
          rw [hle']
          rfl
        have hmax : XF.max acc.alpha v = v := by
          rw [hvv]
          unfold XF.max
          rw [hle']
          rfl
        have hdone2 : XF.le acc.beta (XF.max acc.alpha v) = false := by
          rw [hβ, hmax, hvv]; simp [XF.le]
        have hacc2 := ih hmsr
          (mStep (fun s2 a b mp tb tt =>
            minimax key piece never_expired 0 s2 a b mp tb tt) true s acc m0)
          (by rw [hstep, hβ]) (by rw [hstep]; simp only [hlt, if_true]; exact hdone2)
          (by rw [hstep]; simp only [hlt, if_true]; exact hmax)
          (Or.inr ⟨m0, by rw [hstep]; simp only [hlt, if_true], by
            rw [hstep]; simp only [hlt, if_true]; exact hvv⟩)
          r (by rw [hr, List.foldl_cons])
        refine ⟨?_, ?_, ?_⟩
        · rcases hacc2.1 with ⟨h1, h2⟩ | ⟨m', hm', h1, h2⟩
          · refine Or.inr ⟨m0, List.mem_cons_self _ _, ?_, ?_⟩
            · rw [h1, hstep]; simp only [hlt, if_true]
            · rw [h2, hstep]; simp only [hlt, if_true]; exact hvv
          · exact Or.inr ⟨m', List.mem_cons_of_mem _ hm', h1, h2⟩
        · intro m hm
          rcases List.mem_cons.mp hm with hm | hm
          · subst hm
            refine xf_le_trans ?_ hacc2.2.2
            rw [hstep]; simp only [hlt, if_true]
            rw [hvv]; exact xf_le_refl _
          · exact hacc2.2.1 m hm
        · refine xf_le_trans ?_ hacc2.2.2
          rw [hstep]; simp only [hlt, if_true]
          rw [hvv, hbs, ← hbs, ← hα]
          cases hx : acc.alpha with
          | ninf => simp [XF.le]
          | num q =>
            rw [hx] at hle'
            simp only [XF.le, decide_eq_false_iff_not, not_le] at hle'
            simp [XF.le, le_of_lt hle']
          | pinf =>
            rw [hx] at hα'
            exact XF.noConfusion hα'

/-- A left max-fold over ℚ dominates its seed. -/
theorem le_foldl_max_init (l : List ℚ) (v : ℚ) : v ≤ l.foldl Max.max v := by
  induction l generalizing v with
  | nil => exact le_refl v
  | cons a tl ih => exact le_trans (le_max_left v a) (ih (Max.max v a))

/-- A left max-fold over ℚ dominates every member of the list. -/
theorem le_foldl_max_mem {l : List ℚ} {x : ℚ} (hx : x ∈ l) (v : ℚ) :
    x ≤ l.foldl Max.max v := by
  induction l generalizing v with
  | nil => cases hx
  | cons a tl ih =>
    rcases List.mem_cons.mp hx with h | h
    · subst h
      exact le_trans (le_max_right v x) (le_foldl_max_init tl (Max.max v x))
    · exact ih h (Max.max v a)

/-- A left max-fold over ℚ is bounded by any common upper bound of the
seed and the members. -/
theorem foldl_max_le {l : List ℚ} {v c : ℚ} (hv : v ≤ c)
    (hl : ∀ x ∈ l, x ≤ c) : l.foldl Max.max v ≤ c := by
  induction l generalizing v with
  | nil => exact hv
  | cons a tl ih =>
    exact ih (max_le hv (hl a (List.mem_cons_self a tl)))
      (fun x hx => hl x (List.mem_cons_of_mem a hx))

/-- Claim C6 (amended): at depth 1 — with the agent to move, a fresh
table, the deadline never reached, a non-terminal root holding at least
one legal move, and no terminal grandchild (so quiescence reduces to the
stand-pat evaluation) — the alpha-beta search returns a move whose
reference value at depth 0 equals the unpruned reference minimax value of
the root at depth 1: the pruned search's move is value-equivalent to the
reference move. -/
theorem depth1_matches_reference {κ : Type} [DecidableEq κ] (key : GameState → κ)
    (piece : Player) (s : GameState) (t : Nat)
    (hmax : (s.next_player == piece) = true)
    (hwin : (s.winner).isSome = false)
    (hne : valid_moves s ≠ [])
    (hgrand : ∀ m ∈ valid_moves s, ∀ m2 ∈ valid_moves (s.make_move m),
      ((((s.make_move m).make_move m2)).winner).isSome = false) :
    ∃ m, (minimax key piece never_expired 1 s XF.ninf XF.pinf true [] t).1.1 = some m ∧
      s.is_valid_move m = true ∧
      ref_value piece 0 (s.make_move m) = ref_value piece 1 s := by
  have hms : ∀ m ∈ get_ordered_moves piece s, s.is_valid_move m = true ∧
      (∀ m2 ∈ valid_moves (s.make_move m),
        ((((s.make_move m).make_move m2)).winner).isSome = false) := by
    intro m hm
    have hv := mem_ordered_valid piece s m hm
    exact ⟨hv, hgrand m ((mem_valid_moves s m).mpr hv)⟩
  obtain ⟨r, hr⟩ : ∃ r : MState κ, r = List.foldl (mStep (fun s2 a b mp tb tt =>
      minimax key piece never_expired 0 s2 a b mp tb tt) true s)
      { best_move := none, best_score := XF.ninf, alpha := XF.ninf, beta := XF.pinf,
        done := false, tbl := [], t := t + 1 }
      (get_ordered_moves piece s) := ⟨_, rfl⟩
  have hloop := root_loop key piece s (get_ordered_moves piece s) hms
    { best_move := none, best_score := XF.ninf, alpha := XF.ninf, beta := XF.pinf,
      done := false, tbl := [], t := t + 1 } rfl rfl rfl (Or.inl ⟨rfl, rfl⟩) r hr
  -- the one-step unfolding of the depth-1 search (table miss, non-terminal root)
  have hunf : minimax key piece never_expired 1 s XF.ninf XF.pinf true [] t =
      (if (s.winner).isSome then
        mmLeaf piece never_expired s XF.ninf XF.pinf true [] (t + 1)
      else
        mDescend (fun s2 a b mp tb tt => minimax key piece never_expired 0 s2 a b mp tb tt)
          key piece 0 s XF.ninf XF.pinf [] (t + 1)) := rfl
  rw [hwin] at hunf
  simp only [Bool.false_eq_true, if_false] at hunf
  have hdesc : (minimax key piece never_expired 1 s XF.ninf XF.pinf true [] t).1 =
      (r.best_move, r.best_score) := by
    rw [hunf]
    unfold mDescend
    simp only [hmax, reduceIte]
    rw [← hr]
  -- the processed move list is nonempty
  obtain ⟨m0, hm0⟩ : ∃ m0, m0 ∈ get_ordered_moves piece s := by
    cases h : get_ordered_moves piece s with
    | nil =>
      exfalso
      have hp := get_ordered_moves_perm piece s
      rw [h] at hp
      exact hne hp.nil_eq.symm
    | cons a l => exact ⟨a, h ▸ List.mem_cons_self a l⟩
  -- the loop ends on a real child evaluation
  rcases hloop.1 with ⟨_, h2⟩ | ⟨m', hm', hbm, hbs⟩
  · exfalso
    have hB0 := hloop.2.1 m0 hm0
    rw [h2] at hB0
    simp [XF.le] at hB0
  have hm'v : m' ∈ valid_moves s := (get_ordered_moves_perm piece s).subset hm'
  refine ⟨m', ?_, mem_ordered_valid piece s m' hm', ?_⟩
  · have := congrArg Prod.fst hdesc
    simp only at this
    rw [this, hbm]
  · -- every child evaluation is dominated by the returned one
    have hub : ∀ m ∈ valid_moves s,
        static_eval (s.make_move m) piece ≤ static_eval (s.make_move m') piece := by
      intro m hm
      have hmem : m ∈ get_ordered_moves piece s :=
        (get_ordered_moves_perm piece s).mem_iff.mpr hm
      have hB := hloop.2.1 m hmem
      rw [hbs] at hB
      simpa [XF.le] using hB
    cases hvm : valid_moves s with
    | nil => exact absurd hvm hne
    | cons a l =>
      have hunf1 : ref_value piece 1 s =
          (if (s.winner).isSome then static_eval s piece
           else
             match (valid_moves s).map (fun m => static_eval (s.make_move m) piece) with
             | [] => static_eval s piece
             | v :: rest =>
               if s.next_player == piece then rest.foldl (fun a b => Max.max a b) v
               else rest.foldl (fun a b => Min.min a b) v) := rfl
      rw [hunf1, hwin]
      simp only [Bool.false_eq_true, if_false, hvm, List.map_cons, hmax, reduceIte]
      show ref_value piece 0 (s.make_move m') =
        (l.map (fun m => static_eval (s.make_move m) piece)).foldl Max.max
          (static_eval (s.make_move a) piece)
      have hge : static_eval (s.make_move a) piece ≤ static_eval (s.make_move m') piece :=
        hub a (by rw [hvm]; exact List.mem_cons_self a l)
      refine (le_antisymm ?_ ?_).symm
      · refine foldl_max_le hge ?_
        intro x hx
        obtain ⟨m, hm, hx'⟩ := List.mem_map.mp hx
        rw [← hx']
        exact hub m (by rw [hvm]; exact List.mem_cons_of_mem a hm)
      · have hm'c : m' ∈ a :: l := by rw [← hvm]; exact hm'v
        rcases List.mem_cons.mp hm'c with h | h
        · rw [h]
          exact le_foldl_max_init _ _
        · exact le_foldl_max_mem (List.mem_map.mpr ⟨m', h, rfl⟩) _

/-- Claim C6 (witness for the amended theorem): on the empty 3×3 board
with X to move, the depth-1 search returns a move whose depth-0 reference
value equals the depth-1 reference value of the root. -/
theorem depth1_matches_reference_witness :
    (empty3.next_player == Player.X) = true ∧
    ∃ m, (minimax exact_key Player.X never_expired 1 empty3 XF.ninf XF.pinf true [] 0).1.1
        = some m ∧
      empty3.is_valid_move m = true ∧
      ref_value Player.X 0 (empty3.make_move m) = ref_value Player.X 1 empty3 :=
  ⟨by decide,
   depth1_matches_reference exact_key Player.X empty3 0 (by decide) (by decide)
     (by decide) (by decide)⟩

/-- Claim C5 (witness for the amended theorem): a depth-2 search on the
centre board scores identically with and without the cache. -/
theorem cache_no_effect_shallow_witness :
    (2 : Nat) ≤ 2 ∧
    (minimax exact_key Player.O never_expired 2 center_board XF.ninf XF.pinf true [] 0).1.2 =
      (minimax_nc Player.O never_expired 2 center_board XF.ninf XF.pinf true 0).1.2 :=
  ⟨by omega,
   cache_no_effect_shallow exact_key exact_key_injective Player.O 2 (by omega) center_board
     XF.ninf XF.pinf true 0⟩

/-- Claim C10 (witness): on the centre board a one-iteration search finds
`(0, 0)`, `choose_move` returns it, and it is legal. -/
theorem search_move_is_legal_witness :
    (choose_move_aux exact_key Player.O never_expired 1 1 none center_board [] 0).1
      = some (0, 0) ∧
    center_board.is_valid_move (0, 0) = true ∧
    (choose_move exact_key Player.O never_expired first_choice 1 center_board [] 0).1
      = (0, 0) :=
  ⟨by decide,
   (search_move_is_legal exact_key exact_key_injective Player.O never_expired first_choice
     1 center_board [] (table_ok_nil exact_key) 0 (0, 0) (by decide)).1,
   (search_move_is_legal exact_key exact_key_injective Player.O never_expired first_choice
     1 center_board [] (table_ok_nil exact_key) 0 (0, 0) (by decide)).2⟩

end KInARow
